import Mathlib

/-!
Shallow embedding of the YASTS subtitle-translation pipeline
(`subtitle_translator/`): grouping, windowing, splitback, model-JSON
extraction, the llama HTTP client retry wrapper, and the per-window
retry/shrink loop, together with theorems settling the frozen claims.

Python strings are modelled as `List Char`; Python ints as `ℤ` (list
lengths are `ℕ`, cast where the source compares them with ints); Python
floats (display durations, retry delays) as `ℚ`; Python dicts as
insertion-ordered association lists with overwrite-on-update.
-/

namespace Yasts

/-- Characters treated as whitespace by Python `str.strip` / `str.split`
(the ASCII white-space set; the model restricts attention to it). -/
def isWs (c : Char) : Bool :=
  c == ' ' || c == '\t' || c == '\n' || c == '\r' || c == '\x0b' || c == '\x0c'

/-- The character list of a string literal, for readable concrete inputs. -/
def cl (s : String) : List Char := s.data

/-- Python `str.lstrip()`. -/
def lstrip (l : List Char) : List Char := l.dropWhile isWs

/-- Python `str.rstrip()`. -/
def rstrip (l : List Char) : List Char := (l.reverse.dropWhile isWs).reverse

/-- Python `str.strip()`. -/
def strip (l : List Char) : List Char := lstrip (rstrip l)

/-- Helper for `splitWs`: accumulates the current word. -/
def splitWsAux : List Char → List Char → List (List Char)
  | [], cur => if cur = [] then [] else [cur]
  | c :: t, cur =>
    if isWs c then
      (if cur = [] then splitWsAux t [] else cur :: splitWsAux t [])
    else splitWsAux t (cur ++ [c])

/-- Python `str.split()` (split on whitespace runs, no empty words). -/
def splitWs (l : List Char) : List (List Char) := splitWsAux l []

/-- Python `" ".join(...)`. -/
def joinSp : List (List Char) → List Char
  | [] => []
  | [w] => w
  | w :: w2 :: ws => w ++ ' ' :: joinSp (w2 :: ws)

/-- The music marker character `♪`. -/
def noteChar : Char := '♪'

/-- `grouping._is_music_only`: `line.strip() == "♪"`. -/
def is_music_only (l : List Char) : Bool := strip l == [noteChar]

/-- `grouping._starts_dash`: `line.lstrip().startswith("-")`. -/
def starts_dash (l : List Char) : Bool :=
  match lstrip l with
  | [] => false
  | c :: _ => c == '-'

/-- A phrase-ending punctuation character (`[.!?…]` of `PUNCT_END_RE`). -/
def isPunctEnd (c : Char) : Bool := c == '.' || c == '!' || c == '?' || c == '…'

/-- A closing quote/bracket character (`["')\]]` of `PUNCT_END_RE`). -/
def isCloser (c : Char) : Bool := c == '"' || c == '\'' || c == ')' || c == ']'

/-- `grouping._ends_phrase`: `PUNCT_END_RE.search(line.strip())`, i.e. the
stripped line ends with one or more of `.!?…` followed by zero or more
closing quotes/brackets. -/
def ends_phrase (l : List Char) : Bool :=
  match (strip l).reverse.dropWhile isCloser with
  | [] => false
  | c :: _ => isPunctEnd c

/-- `MULTI_SPEAKER_RE.search`: the character list contains the pattern
whitespace, `-`, whitespace. -/
def hasWsDashWs : List Char → Bool
  | a :: b :: c :: t => (isWs a && b == '-' && isWs c) || hasWsDashWs (b :: c :: t)
  | _ => false

/-- `grouping._contains_multi_speaker`: strip, drop one leading dash, then
search for `" - "` (`\s-\s`). -/
def contains_multi_speaker (l : List Char) : Bool :=
  let s := strip l
  let s2 :=
    match s with
    | c :: t => if c == '-' then t else c :: t
    | [] => []
  hasWsDashWs s2

/-- The fields of `config.Settings` that the embedded code reads. -/
structure Settings where
  max_group_lines : ℤ
  max_group_chars : ℤ
  min_group_text_chars : ℤ
  min_group_words : ℤ
  split_max_line_chars : ℤ
  min_chunk_chars : ℤ
  max_window_chars : ℤ
  context_pre_groups : ℕ
  context_post_groups : ℕ
  max_retries_per_window : ℕ
  shrink_focus_on_retry : Bool
deriving DecidableEq

/-- The defaults of `config.Settings`. -/
def defaultSettings : Settings :=
  ⟨8, 360, 10, 2, 42, 10, 2000, 2, 2, 2, true⟩

/-- One input subtitle line: `{"Position": int, "Line": str}`. -/
structure Item where
  position : ℤ
  line : List Char
deriving DecidableEq

/-- One group: `{"group_id": int, "positions": [...], "text": "..."}`. -/
structure Group where
  group_id : ℕ
  positions : List ℤ
  text : List Char
deriving DecidableEq

/-- The mutable scan state of `group_subtitles`. -/
structure ScanSt where
  groups : List Group
  curPos : List ℤ
  curParts : List (List Char)
  curChars : ℤ
  gid : ℕ
  prevLine : Option (List Char)
deriving DecidableEq

/-- The scan state at the top of `group_subtitles`. -/
def initSt : ScanSt := ⟨[], [], [], 0, 1, none⟩

/-- The local `flush()` of `group_subtitles`. -/
def flushSt (st : ScanSt) : ScanSt :=
  if st.curPos = [] then st
  else
    ⟨st.groups ++ [⟨st.gid, st.curPos, strip (joinSp (st.curParts.map strip))⟩],
      [], [], 0, st.gid + 1, st.prevLine⟩

/-- One iteration of the indexed loop of `group_subtitles` (steps 1-5 of the
source), for the item at `pos` with raw text `rawLine`, where `rawNext` is
the raw text of the following item if any. -/
def stepSt (s : Settings) (st : ScanSt) (pos : ℤ) (rawLine : List Char)
    (rawNext : Option (List Char)) : ScanSt :=
  let line := strip rawLine
  let nextLine := (rawNext.map strip).getD []
  if is_music_only line then
    let st1 := flushSt st
    ⟨st1.groups ++ [⟨st1.gid, [pos], [noteChar]⟩], st1.curPos, st1.curParts,
      st1.curChars, st1.gid + 1, some line⟩
  else if contains_multi_speaker line &&
      (ends_phrase line || starts_dash nextLine || is_music_only nextLine || nextLine == []) then
    let st1 := flushSt st
    ⟨st1.groups ++ [⟨st1.gid, [pos], line⟩], st1.curPos, st1.curParts,
      st1.curChars, st1.gid + 1, some line⟩
  else
    let st1 :=
      if st.curPos = [] then st
      else
        let a := if starts_dash line && !starts_dash (st.prevLine.getD []) then flushSt st else st
        if s.max_group_lines ≤ (a.curPos.length : ℤ) ∨
            s.max_group_chars < a.curChars + (line.length : ℤ) + 1 then flushSt a else a
    let st2 : ScanSt :=
      ⟨st1.groups, st1.curPos ++ [pos], st1.curParts ++ [line],
        st1.curChars + (line.length : ℤ) + 1, st1.gid, st1.prevLine⟩
    let st3 := if ends_phrase line then flushSt st2 else st2
    ⟨st3.groups, st3.curPos, st3.curParts, st3.curChars, st3.gid, some line⟩

/-- The indexed loop of `group_subtitles` (the one-line lookahead is the head
of the remaining items). -/
def scanItems (s : Settings) : ScanSt → List Item → ScanSt
  | st, [] => st
  | st, it :: rest => scanItems s (stepSt s st it.position it.line (rest.head?.map Item.line)) rest

/-- One iteration of the loop of `grouping._merge_tiny_groups`: either append
`g` or merge it into the last accumulated group. -/
def merge_step (s : Settings) (acc : List Group) (g : Group) : List Group :=
  let text := strip g.text
  if text == [noteChar] then acc ++ [g]
  else if starts_dash text || contains_multi_speaker text then acc ++ [g]
  else
    let words := (splitWs text).filter (fun w => w != [])
    let isTiny := (text.length : ℤ) < s.min_group_text_chars ∨
      (words.length : ℤ) < s.min_group_words
    match acc.getLast? with
    | none => acc ++ [g]
    | some prev =>
      if ends_phrase (strip prev.text) then acc ++ [g]
      else if isTiny then
        acc.dropLast ++
          [⟨prev.group_id, prev.positions ++ g.positions, strip (rstrip prev.text ++ ' ' :: text)⟩]
      else acc ++ [g]

/-- The final renumbering of `_merge_tiny_groups`
(`enumerate(merged, start=1)`). -/
def renumberFrom : ℕ → List Group → List Group
  | _, [] => []
  | i, g :: t => ⟨i, g.positions, g.text⟩ :: renumberFrom (i + 1) t

/-- `grouping._merge_tiny_groups`. -/
def merge_tiny_groups (s : Settings) (gs : List Group) : List Group :=
  renumberFrom 1 (gs.foldl (merge_step s) [])

/-- `grouping.group_subtitles`: scan, final flush, then the merge pass. -/
def group_subtitles (s : Settings) (items : List Item) : List Group :=
  merge_tiny_groups s (flushSt (scanItems s initSt items)).groups

/-! ## Windowing (`windowing.py`) -/

/-- `windowing.Window`. -/
structure Window where
  context_before : List Group
  focus : List Group
  context_after : List Group
deriving DecidableEq

/-- `windowing._group_cost_chars`: text length plus a fixed overhead. -/
def group_cost_chars (g : Group) : ℤ := (g.text.length : ℤ) + 48

/-- The focus-growing inner loop of `make_windows`, after the first group has
been accepted: stop before a group whose cost would exceed the budget.
Returns (further focus groups, unconsumed rest, final budget_used). -/
def growFocusAux (maxc : ℤ) : ℤ → List Group → List Group × List Group × ℤ
  | used, [] => ([], [], used)
  | used, g :: t =>
    if maxc < used + group_cost_chars g then ([], g :: t, used)
    else
      let r := growFocusAux maxc (used + group_cost_chars g) t
      (g :: r.1, r.2.1, r.2.2)

/-- The focus-growing loop of `make_windows`: the first unconsumed group is
always accepted (the `focus and ...` guard is false when focus is empty). -/
def growFocus (maxc : ℤ) : List Group → List Group × List Group × ℤ
  | [] => ([], [], 0)
  | g :: t =>
    let r := growFocusAux maxc (group_cost_chars g) t
    (g :: r.1, r.2.1, r.2.2)

/-- The pre/post context loops of `make_windows`: take up to `n` groups for
context, stopping at the first whose cost exceeds the remaining budget.
Returns the taken context and the remaining budget. -/
def ctxTake (budget : ℤ) : ℕ → List Group → List Group × ℤ
  | 0, _ => ([], budget)
  | _, [] => ([], budget)
  | n + 1, g :: t =>
    if budget < group_cost_chars g then ([], budget)
    else
      let r := ctxTake (budget - group_cost_chars g) n t
      (g :: r.1, r.2)

/-- The `while i < n` loop of `make_windows`. `prevRev` is the already
consumed prefix, reversed (closest group first), used for pre-context. The
fuel is the number of unconsumed groups, which bounds the number of
windows since every window consumes at least one group. -/
def mwLoopF (maxc : ℤ) (pre post : ℕ) : ℕ → List Group → List Group → List Window
  | 0, _, _ => []
  | _, _, [] => []
  | fuel + 1, prevRev, g :: t =>
    let fr := growFocus maxc (g :: t)
    let fr2 := if fr.1 = [] then ([g], (t, group_cost_chars g)) else fr
    let focus := fr2.1
    let rest := fr2.2.1
    let used := fr2.2.2
    let remaining := maxc - used
    let cb := ctxTake remaining pre prevRev
    let ca := ctxTake cb.2 post rest
    ⟨cb.1.reverse, focus, ca.1⟩ :: mwLoopF maxc pre post fuel (focus.reverse ++ prevRev) rest

/-- `windowing.make_windows`; `none` models the `ValueError` raised for a
budget of at most 200. -/
def make_windows (groups : List Group) (maxc : ℤ) (pre post : ℕ) : Option (List Window) :=
  if maxc ≤ 200 then none
  else some (mwLoopF maxc pre post groups.length [] groups)

/-! ## Splitback (`splitback.py`) -/

/-- The word-taking walk of `split_greedy` for one non-final target:
grow the chunk while under target or under the minimum chunk length.
Arguments: accumulated words `cur`, its joined length `curLen`, remaining
words. Returns (chunk words, remaining words). -/
def takeChunk (target minChunk : ℤ) : List (List Char) → ℤ → List (List Char) →
    List (List Char) × List (List Char)
  | cur, _, [] => (cur, [])
  | cur, curLen, w :: ws =>
    let addLen : ℤ := (w.length : ℤ) + (if cur = [] then 0 else 1)
    if cur ≠ [] ∧ target < curLen + addLen ∧ minChunk ≤ curLen then (cur, w :: ws)
    else
      if target ≤ curLen + addLen ∧ minChunk ≤ curLen + addLen then (cur ++ [w], ws)
      else takeChunk target minChunk (cur ++ [w]) (curLen + addLen) ws

/-- The per-target loop of `split_greedy` (nonempty targets, nonempty words):
each non-final target takes a greedy chunk, the final target absorbs all
remaining words. -/
def sgGo (minChunk : ℤ) : List ℤ → List (List Char) → List (List Char)
  | [], _ => []
  | [_], ws => [strip (joinSp ws)]
  | t :: t2 :: ts, ws =>
    match ws with
    | [] => [] :: sgGo minChunk (t2 :: ts) []
    | w :: ws2 =>
      let r := takeChunk t minChunk [] 0 (w :: ws2)
      strip (joinSp r.1) :: sgGo minChunk (t2 :: ts) r.2

/-- `splitback.split_greedy`. -/
def split_greedy (text : List Char) (targets : List ℤ) (minChunk : ℤ) : List (List Char) :=
  let s := strip text
  if targets = [] then [s]
  else
    let words := splitWs s
    if words = [] then targets.map (fun _ => [])
    else sgGo minChunk targets words

/-- `splitback._targets_from_source_lengths`. -/
def targets_from_source_lengths (s : Settings) (positions : List ℤ)
    (inputByPos : ℤ → Option (List Char)) : List ℤ :=
  positions.map (fun p =>
    min s.split_max_line_chars (max 8 ((strip ((inputByPos p).getD [])).length : ℤ)))

/-- Python `int(round(x))` with round-half-to-even, on the exact rational
modelling the float. -/
def pyRound (q : ℚ) : ℤ :=
  let f := Int.fdiv q.num (q.den : ℤ)
  if q - f < 1 / 2 then f
  else if (1 : ℚ) / 2 < q - f then f + 1
  else if f % 2 = 0 then f else f + 1

/-- One pass of the grow loop of `_targets_weighted_by_duration`:
`for idx in growable: if budget <= 0: break; if targets[idx] < max_t: +1`. -/
def growPass (maxt : ℤ) : List ℕ → List ℤ × ℤ → List ℤ × ℤ
  | [], tb => tb
  | i :: is2, (ts, b) =>
    if b ≤ 0 then (ts, b)
    else if ts.getD i 0 < maxt then growPass maxt is2 (ts.set i (ts.getD i 0 + 1), b - 1)
    else growPass maxt is2 (ts, b)

/-- The `while budget > 0` grow loop of `_targets_weighted_by_duration`.
The fuel is instantiated with the initial budget, which bounds the number
of passes since every pass with a growable candidate spends at least one
unit of budget. -/
def growLoopF (maxt : ℤ) (order : List ℕ) : ℕ → List ℤ → ℤ → List ℤ
  | 0, ts, _ => ts
  | fuel + 1, ts, b =>
    if 0 < b then
      let growable := order.filter (fun i => decide (ts.getD i 0 < maxt))
      if growable = [] then ts
      else
        let p := growPass maxt growable (ts, b)
        growLoopF maxt order fuel p.1 p.2
    else ts

/-- One pass of the shrink loop of `_targets_weighted_by_duration`. -/
def shrinkPass (mint : ℤ) : List ℕ → List ℤ × ℤ → List ℤ × ℤ
  | [], tb => tb
  | i :: is2, (ts, over) =>
    if over ≤ 0 then (ts, over)
    else if mint < ts.getD i 0 then shrinkPass mint is2 (ts.set i (ts.getD i 0 - 1), over - 1)
    else shrinkPass mint is2 (ts, over)

/-- The `while over > 0` shrink loop of `_targets_weighted_by_duration`,
fueled like `growLoopF`. -/
def shrinkLoopF (mint : ℤ) (order : List ℕ) : ℕ → List ℤ → ℤ → List ℤ
  | 0, ts, _ => ts
  | fuel + 1, ts, over =>
    if 0 < over then
      let shrinkable := order.filter (fun i => decide (mint < ts.getD i 0))
      if shrinkable = [] then ts
      else
        let p := shrinkPass mint shrinkable (ts, over)
        shrinkLoopF mint order fuel p.1 p.2
    else ts

/-- `sorted(range(len durs), key=durs, reverse=True)` (a stable sort,
modelled by insertion sort, which is stable). -/
def sortIdxDesc (durs : List ℚ) : List ℕ :=
  (List.range durs.length).insertionSort (fun i j => durs.getD j 0 ≤ durs.getD i 0)

/-- `sorted(range(len durs), key=durs)` (stable, ascending). -/
def sortIdxAsc (durs : List ℚ) : List ℕ :=
  (List.range durs.length).insertionSort (fun i j => durs.getD i 0 ≤ durs.getD j 0)

/-- `splitback._targets_weighted_by_duration`. `durGet` models
`duration_by_pos.get(p, 0.0)`. -/
def targets_weighted_by_duration (s : Settings) (positions : List ℤ)
    (translated : List Char) (durGet : ℤ → ℚ) : List ℤ :=
  let tr := strip translated
  let totalChars : ℤ := max 1 (tr.length : ℤ)
  let minT : ℤ := max 8 s.min_chunk_chars
  let maxT : ℤ := s.split_max_line_chars
  let durs : List ℚ := positions.map (fun p => max (1 / 100) (durGet p))
  let totalDur : ℚ := durs.sum
  if totalDur ≤ 0 then targets_from_source_lengths s positions (fun _ => none)
  else
    let targets := durs.map (fun d => min maxT (max minT (pyRound ((totalChars : ℚ) * (d / totalDur)))))
    let capTotal : ℤ := min totalChars (maxT * (positions.length : ℤ))
    let curTotal := targets.sum
    if curTotal < capTotal then
      growLoopF maxT (sortIdxDesc durs) (capTotal - curTotal).toNat targets (capTotal - curTotal)
    else if capTotal < curTotal then
      shrinkLoopF minT (sortIdxAsc durs) (curTotal - capTotal).toNat targets (curTotal - capTotal)
    else targets

/-- Python-dict update on an insertion-ordered association list:
overwrite in place if the key exists, else append. -/
def dictSetI (d : List (ℤ × List Char)) (k : ℤ) (v : List Char) : List (ℤ × List Char) :=
  if d.any (fun kv => kv.1 == k) then d.map (fun kv => if kv.1 == k then (k, v) else kv)
  else d ++ [(k, v)]

/-- Lookup in an association list modelling a Python dict. -/
def alookup (m : List (ℤ × ℚ)) (p : ℤ) : Option ℚ :=
  (m.find? (fun kv => kv.1 == p)).map (fun kv => kv.2)

/-- `splitback.split_group_translation_to_positions`. The returned Python
dict is modelled as the association list built by successive dict updates
over `zip(positions, chunks)`. -/
def split_group_translation_to_positions (s : Settings) (positions : List ℤ)
    (translated : List Char) (inputByPos : ℤ → Option (List Char))
    (durMap : Option (List (ℤ × ℚ))) : List (ℤ × List Char) :=
  let tr := strip translated
  if tr = [noteChar] then
    match positions with
    | [] => []
    | p :: _ => [(p, [noteChar])]
  else
    let targets :=
      match durMap with
      | some m =>
        if m ≠ [] ∧ ∀ p ∈ positions, (alookup m p).isSome then
          targets_weighted_by_duration s positions tr (fun p => (alookup m p).getD 0)
        else targets_from_source_lengths s positions inputByPos
      | none => targets_from_source_lengths s positions inputByPos
    let chunks := split_greedy tr targets s.min_chunk_chars
    ((positions.zip chunks).map (fun pc => (pc.1, strip pc.2))).foldl
      (fun d kv => dictSetI d kv.1 kv.2) []

/-! ## Model-JSON extraction (`json_parse.py`) -/

/-- Values produced by Python `json.loads`. Python `bool` is a subclass of
`int`, so `pybool` is kept distinct and `pyIntVal` reflects
`isinstance(v, int)`. The numeric value of a float is irrelevant to the
embedded code and is carried as an exact rational. -/
inductive PyVal where
  | pynone : PyVal
  | pybool : Bool → PyVal
  | pyint : ℤ → PyVal
  | pyfloat : ℚ → PyVal
  | pystr : List Char → PyVal
  | pylist : List PyVal → PyVal
  | pydict : List (List Char × PyVal) → PyVal

instance : Inhabited PyVal := ⟨.pynone⟩

/-- `isinstance(v, int)` and the int value: true ints, and booleans
(`True == 1`, `False == 0`). -/
def pyIntVal : PyVal → Option ℤ
  | .pybool b => some (if b then 1 else 0)
  | .pyint n => some n
  | _ => none

/-- `isinstance(v, str)` and the string value. -/
def pyStrVal : PyVal → Option (List Char)
  | .pystr s => some s
  | _ => none

/-- Python `dict.get` on the (unique-keyed) field list of a JSON object. -/
def dget (fields : List (List Char × PyVal)) (k : List Char) : Option PyVal :=
  (fields.find? (fun kv => kv.1 == k)).map (fun kv => kv.2)

/-- The group-id loop of `extract_group_translations`: the first value (in
key order) that is an int and is a member of `expected`. -/
def resolveGid (expected : List ℤ) : List (List Char × PyVal) → Option ℤ
  | [] => none
  | kv :: rest =>
    match pyIntVal kv.2 with
    | some n => if n ∈ expected then some n else resolveGid expected rest
    | none => resolveGid expected rest

/-- The line-fallback loop of `extract_group_translations`: the first
string value. -/
def firstStrVal : List (List Char × PyVal) → Option (List Char)
  | [] => none
  | kv :: rest =>
    match pyStrVal kv.2 with
    | some s => some s
    | none => firstStrVal rest

/-- The per-element body of `extract_group_translations`: resolve a group id
and a line for one translations-list element (dict elements only). -/
def resolveItem (expected : List ℤ) : PyVal → Option (ℤ × List Char)
  | .pydict fl =>
    let line0 :=
      match dget fl (cl ("line")) with
      | some v => pyStrVal v
      | none => none
    let gid := resolveGid expected fl
    let line :=
      match line0 with
      | some sl => some sl
      | none => firstStrVal fl
    match gid, line with
    | some g, some sl => some (g, sl)
    | _, _ => none
  | _ => none

/-- `json_parse.extract_group_translations` (with the default
`translations_key`). The result dict is the association list built by
`out[gid] = line` updates in element order. -/
def extract_group_translations (obj : List (List Char × PyVal)) (expected : List ℤ) :
    List (ℤ × List Char) :=
  match dget obj (cl ("translations")) with
  | some (.pylist items) =>
    items.foldl (fun out it =>
      match resolveItem expected it with
      | some gl => dictSetI out gl.1 gl.2
      | none => out) []
  | _ => []

/-- Analysis helper (not from the source): the (id, line) pairs that resolve,
in element order. `extract_group_translations` folds dict updates over
exactly these pairs. -/
def resolvedPairs (obj : List (List Char × PyVal)) (expected : List ℤ) :
    List (ℤ × List Char) :=
  match dget obj (cl ("translations")) with
  | some (.pylist items) => items.filterMap (resolveItem expected)
  | _ => []

/-- Lookup in the result dict of `extract_group_translations`. -/
def dlookup (d : List (ℤ × List Char)) (k : ℤ) : Option (List Char) :=
  (d.find? (fun kv => kv.1 == k)).map (fun kv => kv.2)

/-! ## Model Gateway (`llama_client.py`) -/

/-- A failed `call_llama` attempt: a transport-level error (HTTP error,
timeout, JSON decode failure), or the `ValueError` of
`extract_llama_content` carrying the response keys. -/
inductive LlamaFailure where
  | transport : LlamaFailure
  | shape : List (List Char) → LlamaFailure
deriving DecidableEq

/-- The final bare `{"text": ...}` check of `extract_llama_content`, reached
when neither a content field nor a usable choices element was found. -/
def llamaTextField (raw : List (List Char × PyVal)) : Except LlamaFailure (List Char) :=
  match dget raw (cl ("text")) with
  | some (.pystr s) => .ok s
  | _ => .error (.shape (raw.map (fun kv => kv.1)))

/-- `llama_client.extract_llama_content`: content field, else first choices
element (text field, else message-content), else bare text field, else the
shape `ValueError`. -/
def extract_llama_content (raw : List (List Char × PyVal)) : Except LlamaFailure (List Char) :=
  match dget raw (cl ("content")) with
  | some (.pystr s) => .ok s
  | _ =>
    match dget raw (cl ("choices")) with
    | some (.pylist (c0 :: _)) =>
      match c0 with
      | .pydict c0f =>
        match dget c0f (cl ("text")) with
        | some (.pystr s) => .ok s
        | _ =>
          match dget c0f (cl ("message")) with
          | some (.pydict mf) =>
            match dget mf (cl ("content")) with
            | some (.pystr s) => .ok s
            | _ => llamaTextField raw
          | _ => llamaTextField raw
      | _ => llamaTextField raw
    | _ => llamaTextField raw

/-- `llama_client.call_llama`, with the HTTP + JSON-decode stage abstracted
as its outcome: a transport failure or a parsed response body. -/
def call_llama (resp : Except Unit (List (List Char × PyVal))) :
    Except LlamaFailure (List (List Char × PyVal) × List Char) :=
  match resp with
  | .error _ => .error .transport
  | .ok raw =>
    match extract_llama_content raw with
    | .ok c => .ok (raw, c)
    | .error e => .error e

/-- The backoff delay `base_delay_s * (2 ** attempt)` with
`base_delay_s = 0.75`. -/
def retryDelay (attempt : ℕ) : ℚ := 3 / 4 * 2 ^ attempt

/-- The retry loop of `call_llama_with_retries`. `left` is the number of
retries still allowed (`retries - attempt`); the loop breaks when it hits
zero. The instrumented result carries the number of attempts made and the
backoff delays slept. -/
def retryGo (oracle : ℕ → Except Unit (List (List Char × PyVal))) :
    ℕ → ℕ → List ℚ →
    Except LlamaFailure (List (List Char × PyVal) × List Char) × ℕ × List ℚ
  | left, attempt, delays =>
    match call_llama (oracle attempt) with
    | .ok v => (.ok v, attempt + 1, delays)
    | .error e =>
      match left with
      | 0 => (.error e, attempt + 1, delays)
      | l + 1 => retryGo oracle l (attempt + 1) (delays ++ [retryDelay attempt])

/-- `llama_client.call_llama_with_retries`: attempts indexed 0..retries, the
response of attempt `k` given by `oracle k`. -/
def call_llama_with_retries (oracle : ℕ → Except Unit (List (List Char × PyVal)))
    (retries : ℕ) :
    Except LlamaFailure (List (List Char × PyVal) × List Char) × ℕ × List ℚ :=
  retryGo oracle retries 0 []

/-- True iff a retried call ended in a content-shape error. -/
def isShapeErr : Except LlamaFailure (List (List Char × PyVal) × List Char) → Bool
  | .error (.shape _) => true
  | _ => false

/-! ## Window Translator retry/shrink loop (`pipeline.py`) -/

/-- `pipeline._shrink_list` with the default factor 0.5
(`max(1, int(len(xs) * 0.5))` = `max 1 (len / 2)`). -/
def shrink_list (xs : List Group) : List Group :=
  if xs.length ≤ 1 then xs else xs.take (max 1 (xs.length / 2))

/-- The nested retry loops of `pipeline._translate_entire_window`, as a
single step relation. Each `_translate_focus_window` call is abstracted as
`oracle k curFocus` (`k` counts calls): an exception or the chunk's
position→text map. On success the chunk is consumed and the next chunk is
the full remainder with the attempt counter reset; on failure the attempt
counter grows, the chunk optionally shrinks, and past the retry budget a
multi-group chunk is forced to one group with the counter reset while a
single-group chunk re-raises. `none` means the fuel ran out. -/
def translateWindowLoop (s : Settings)
    (oracle : ℕ → List Group → Except Unit (List (ℤ × List Char))) :
    ℕ → ℕ → List Group → List Group → ℕ → List (ℤ × List Char) → ℕ →
    Option (Except Unit (List (ℤ × List Char) × ℕ))
  | 0, _, _, _, _, _, _ => none
  | fuel + 1, k, focusRem, curFocus, attempt, out, cnt =>
    match focusRem with
    | [] => some (.ok (out, cnt))
    | _ :: _ =>
      match oracle k curFocus with
      | .ok chunkOut =>
        let out2 := chunkOut.foldl (fun d kv => dictSetI d kv.1 kv.2) out
        let rem2 := focusRem.drop curFocus.length
        translateWindowLoop s oracle fuel (k + 1) rem2 rem2 0 out2 (cnt + curFocus.length)
      | .error e =>
        let attempt2 := attempt + 1
        if s.max_retries_per_window < attempt2 then
          if 1 < curFocus.length then
            translateWindowLoop s oracle fuel (k + 1) focusRem (curFocus.take 1) 0 out cnt
          else some (.error e)
        else
          let cur2 :=
            if s.shrink_focus_on_retry && decide (1 < curFocus.length) then shrink_list curFocus
            else curFocus
          translateWindowLoop s oracle fuel (k + 1) focusRem cur2 attempt2 out cnt

/-- A fuel amount sufficient for `translateWindowLoop` on a focus of `n`
groups (proved in `retry_shrink_termination`). -/
def c8Fuel (s : Settings) (n : ℕ) : ℕ :=
  (2 * n + 1) * (s.max_retries_per_window + 2) + s.max_retries_per_window + 2

/-- `pipeline._translate_entire_window`, entered with the window's focus. -/
def translate_entire_window (s : Settings)
    (oracle : ℕ → List Group → Except Unit (List (ℤ × List Char)))
    (focus : List Group) : Option (Except Unit (List (ℤ × List Char) × ℕ)) :=
  translateWindowLoop s oracle (c8Fuel s focus.length) 0 focus focus 0 [] 0

/-- Analysis helper: all positions of a group list, concatenated in order. -/
def posJoin (gs : List Group) : List ℤ := (gs.map Group.positions).flatten

/-! ## Lemmas: the grouping scan -/

theorem flushSt_curPos (st : ScanSt) : (flushSt st).curPos = [] := by
  unfold flushSt
  split
  · assumption
  · rfl

theorem flushSt_posJoin (st : ScanSt) :
    posJoin (flushSt st).groups = posJoin st.groups ++ st.curPos := by
  unfold flushSt
  split
  · simp_all [posJoin]
  · simp [posJoin]

theorem posJoin_append (a b : List Group) : posJoin (a ++ b) = posJoin a ++ posJoin b := by
  simp [posJoin]

theorem posJoin_single (g : Group) : posJoin [g] = g.positions := by
  simp [posJoin]

theorem stepSt_posJoin (s : Settings) (st : ScanSt) (pos : ℤ) (l : List Char)
    (n : Option (List Char)) :
    posJoin (stepSt s st pos l n).groups ++ (stepSt s st pos l n).curPos
      = posJoin st.groups ++ st.curPos ++ [pos] := by
  simp only [stepSt]
  split_ifs <;>
    simp [posJoin_append, posJoin_single, flushSt_posJoin, flushSt_curPos]

theorem scanItems_posJoin (s : Settings) (items : List Item) (st : ScanSt) :
    posJoin (scanItems s st items).groups ++ (scanItems s st items).curPos
      = posJoin st.groups ++ st.curPos ++ items.map Item.position := by
  induction items generalizing st with
  | nil => simp [scanItems]
  | cons it rest ih =>
    simp only [scanItems, List.map_cons]
    rw [ih, stepSt_posJoin]
    simp

theorem merge_step_posJoin (s : Settings) (acc : List Group) (g : Group) :
    posJoin (merge_step s acc g) = posJoin acc ++ g.positions := by
  rcases List.eq_nil_or_concat acc with rfl | ⟨lf, prev, rfl⟩
  · simp only [merge_step]
    split_ifs <;> simp [posJoin_append, posJoin_single, posJoin]
  · simp only [merge_step, List.concat_eq_append, List.getLast?_concat, List.dropLast_concat]
    split_ifs <;> simp [posJoin_append, posJoin_single, posJoin]

theorem foldl_merge_posJoin (s : Settings) (gs : List Group) (acc : List Group) :
    posJoin (gs.foldl (merge_step s) acc) = posJoin acc ++ posJoin gs := by
  induction gs generalizing acc with
  | nil => simp [posJoin]
  | cons g t ih =>
    simp only [List.foldl_cons]
    rw [ih, merge_step_posJoin]
    simp [posJoin]

theorem posJoin_cons (g : Group) (t : List Group) :
    posJoin (g :: t) = g.positions ++ posJoin t := by
  simp [posJoin]

theorem renumberFrom_posJoin (i : ℕ) (gs : List Group) :
    posJoin (renumberFrom i gs) = posJoin gs := by
  induction gs generalizing i with
  | nil => rfl
  | cons g t ih => simp [renumberFrom, posJoin_cons, ih]

theorem renumberFrom_length (i : ℕ) (gs : List Group) :
    (renumberFrom i gs).length = gs.length := by
  induction gs generalizing i with
  | nil => rfl
  | cons g t ih => simp [renumberFrom, ih]

theorem renumberFrom_ids (i : ℕ) (gs : List Group) :
    (renumberFrom i gs).map Group.group_id = List.range' i gs.length := by
  induction gs generalizing i with
  | nil => rfl
  | cons g t ih => simp [renumberFrom, List.range', ih]

theorem group_subtitles_posJoin (s : Settings) (items : List Item) :
    posJoin (group_subtitles s items) = items.map Item.position := by
  unfold group_subtitles merge_tiny_groups
  rw [renumberFrom_posJoin, foldl_merge_posJoin, flushSt_posJoin, scanItems_posJoin]
  simp [posJoin, initSt]

theorem flushSt_mem {g : Group} (st : ScanSt) (hg : g ∈ st.groups) :
    g ∈ (flushSt st).groups := by
  unfold flushSt
  split
  · exact hg
  · exact List.mem_append_left _ hg

theorem stepSt_mem {g : Group} (s : Settings) (st : ScanSt) (pos : ℤ) (l : List Char)
    (n : Option (List Char)) (hg : g ∈ st.groups) :
    g ∈ (stepSt s st pos l n).groups := by
  simp only [stepSt]
  split_ifs <;> dsimp only <;>
    solve_by_elim [flushSt_mem, List.mem_append_left]

theorem scanItems_mem {g : Group} (s : Settings) (items : List Item) (st : ScanSt)
    (hg : g ∈ st.groups) : g ∈ (scanItems s st items).groups := by
  induction items generalizing st with
  | nil => exact hg
  | cons it rest ih => exact ih _ (stepSt_mem s st _ _ _ hg)

theorem is_music_only_note : is_music_only [noteChar] = true := by decide

theorem scan_music (s : Settings) (items : List Item) (st : ScanSt) (it : Item)
    (hmem : it ∈ items) (hm : strip it.line = [noteChar]) :
    ∃ gi, (⟨gi, [it.position], [noteChar]⟩ : Group) ∈ (scanItems s st items).groups := by
  induction items generalizing st with
  | nil => simp at hmem
  | cons it2 rest ih =>
    rcases List.mem_cons.mp hmem with rfl | hmem2
    · refine ⟨(flushSt st).gid, scanItems_mem s rest _ ?_⟩
      simp [stepSt, hm, is_music_only_note]
    · exact ih _ hmem2

theorem nodup_posJoin_pairwise (gs : List Group) (h : (posJoin gs).Nodup) :
    gs.Pairwise (fun a b => ∀ p ∈ a.positions, p ∉ b.positions) := by
  induction gs with
  | nil => exact List.Pairwise.nil
  | cons g t ih =>
    have hj : posJoin (g :: t) = g.positions ++ posJoin t := by simp [posJoin]
    rw [hj, List.nodup_append] at h
    refine List.Pairwise.cons ?_ (ih h.2.1)
    intro b hb p hp
    intro hpb
    exact h.2.2 hp (by
      simp only [posJoin, List.mem_flatten]
      exact ⟨b.positions, List.mem_map_of_mem Group.positions hb, hpb⟩)

end Yasts

namespace Yasts

theorem dropWhile_append_last {p : Char → Bool} (xs : List Char) (c : Char)
    (hc : p c = false) : ∃ zs, (xs ++ [c]).dropWhile p = zs ++ [c] := by
  induction xs with
  | nil => exact ⟨[], by simp [List.dropWhile_cons, hc]⟩
  | cons x t ih =>
    by_cases hx : p x
    · simpa [List.dropWhile_cons, hx] using ih
    · exact ⟨x :: t, by simp [List.dropWhile_cons, hx]⟩

theorem rstrip_cons_of_not_ws (c : Char) (l : List Char) (hc : isWs c = false) :
    ∃ r, rstrip (c :: l) = c :: r := by
  unfold rstrip
  obtain ⟨zs, hz⟩ := dropWhile_append_last l.reverse c hc
  rw [List.reverse_cons, hz]
  exact ⟨zs.reverse, by simp⟩

theorem strip_cons_of_not_ws (c : Char) (l : List Char) (hc : isWs c = false) :
    ∃ r, strip (c :: l) = c :: r := by
  unfold strip lstrip
  obtain ⟨r, hr⟩ := rstrip_cons_of_not_ws c l hc
  rw [hr]
  exact ⟨r, by simp [List.dropWhile_cons, hc]⟩

theorem head?_append_some {l l2 : List ℤ} {a : ℤ} (h : l.head? = some a) :
    (l ++ l2).head? = some a := by
  cases l with
  | nil => simp at h
  | cons x t => simpa using h

theorem isWs_note : isWs noteChar = false := by decide

theorem merge_step_music_pres (s : Settings) (p : ℤ) (acc : List Group) (g : Group)
    (h : ∃ g2 ∈ acc, g2.positions.head? = some p ∧ ∃ t, g2.text = noteChar :: t) :
    ∃ g2 ∈ merge_step s acc g,
      g2.positions.head? = some p ∧ ∃ t, g2.text = noteChar :: t := by
  obtain ⟨g2, hmem, hh, t, ht⟩ := h
  rcases List.eq_nil_or_concat acc with rfl | ⟨lf, prev, rfl⟩
  · simp at hmem
  · rw [List.concat_eq_append] at hmem
    simp only [merge_step, List.concat_eq_append, List.getLast?_concat, List.dropLast_concat]
    split_ifs <;> try exact ⟨g2, List.mem_append_left _ hmem, hh, t, ht⟩
    rcases List.mem_append.mp hmem with h2 | h2
    · exact ⟨g2, List.mem_append_left _ h2, hh, t, ht⟩
    · have hg2 : g2 = prev := by simpa using h2
      subst hg2
      rw [ht]
      obtain ⟨r1, hr1⟩ := rstrip_cons_of_not_ws noteChar t isWs_note
      rw [hr1]
      obtain ⟨r2, hr2⟩ :=
        strip_cons_of_not_ws noteChar (r1 ++ ' ' :: strip g.text) isWs_note
      refine ⟨_, List.mem_append_right _ (List.mem_singleton.mpr rfl), ?_, ?_⟩
      · exact head?_append_some hh
      · exact ⟨r2, by simpa using hr2⟩

theorem merge_step_music_self (s : Settings) (p : ℤ) (acc : List Group) (gi : ℕ) :
    ∃ g2 ∈ merge_step s acc ⟨gi, [p], [noteChar]⟩,
      g2.positions.head? = some p ∧ ∃ t, g2.text = noteChar :: t := by
  have hc : (strip ([noteChar] : List Char) == [noteChar]) = true := by decide
  refine ⟨⟨gi, [p], [noteChar]⟩, ?_, rfl, [], rfl⟩
  simp [merge_step, hc]

theorem foldl_merge_music (s : Settings) (p : ℤ) (gs : List Group) (acc : List Group)
    (h : (∃ g2 ∈ acc, g2.positions.head? = some p ∧ ∃ t, g2.text = noteChar :: t) ∨
      ∃ gi, (⟨gi, [p], [noteChar]⟩ : Group) ∈ gs) :
    ∃ g2 ∈ gs.foldl (merge_step s) acc,
      g2.positions.head? = some p ∧ ∃ t, g2.text = noteChar :: t := by
  induction gs generalizing acc with
  | nil =>
    rcases h with h | ⟨gi, hgi⟩
    · exact h
    · simp at hgi
  | cons g t ih =>
    simp only [List.foldl_cons]
    rcases h with h | ⟨gi, hgi⟩
    · exact ih _ (Or.inl (merge_step_music_pres s p acc g h))
    · rcases List.mem_cons.mp hgi with hg | hmem2
      · rw [← hg]
        exact ih _ (Or.inl (merge_step_music_self s p acc gi))
      · exact ih _ (Or.inr ⟨gi, hmem2⟩)

theorem renumberFrom_exists (i : ℕ) (gs : List Group) (g : Group) (hg : g ∈ gs) :
    ∃ g2 ∈ renumberFrom i gs, g2.positions = g.positions ∧ g2.text = g.text := by
  induction gs generalizing i with
  | nil => simp at hg
  | cons a t ih =>
    rcases List.mem_cons.mp hg with rfl | hm
    · exact ⟨⟨i, g.positions, g.text⟩, by simp [renumberFrom], rfl, rfl⟩
    · obtain ⟨g2, h1, h2⟩ := ih (i + 1) hm
      exact ⟨g2, by simp [renumberFrom]; exact Or.inr h1, h2⟩

/-- C1 counterexample: with default settings, for the input
`[(1, "♪"), (2, "hi")]` the tiny following fragment merges backward into
the music group, so the music line's group has positions `[1, 2]` and text
`"♪ hi"` — not a singleton with text `"♪"`. -/
theorem music_isolation_cex :
    ∃ g ∈ group_subtitles defaultSettings [⟨1, cl ("♪")⟩, ⟨2, cl ("hi")⟩],
      (1 : ℤ) ∈ g.positions ∧ (g.positions ≠ [1] ∨ g.text ≠ [noteChar]) := by
  decide

/-- C1 (amended): a line whose stripped text is the music marker always
begins its own group in the output of `group_subtitles`: the group's first
position is that line's position and its text starts with `♪`. (Pre-merge
the group is exactly the singleton `♪`, and the merge pass never merges a
music group backward into the previous group; but a following tiny
fragment may be absorbed into it, which is what the counterexample
exhibits.) -/
theorem music_heads_its_group (s : Settings) (items : List Item) (it : Item)
    (hmem : it ∈ items) (hm : strip it.line = [noteChar]) :
    ∃ g ∈ group_subtitles s items,
      g.positions.head? = some it.position ∧ ∃ t, g.text = noteChar :: t := by
  obtain ⟨gi, hg⟩ := scan_music s items initSt it hmem hm
  have hflush := flushSt_mem (scanItems s initSt items) hg
  unfold group_subtitles merge_tiny_groups
  obtain ⟨g2, hg2, hprop⟩ :=
    foldl_merge_music s it.position _ [] (Or.inr ⟨gi, hflush⟩)
  obtain ⟨g3, hg3, hp3, ht3⟩ := renumberFrom_exists 1 _ g2 hg2
  exact ⟨g3, hg3, by rw [hp3]; exact hprop.1, by rw [ht3]; exact hprop.2⟩

theorem music_heads_its_group_witness :
    (⟨3, cl ("♪")⟩ : Item) ∈ ([⟨1, cl ("Hello.")⟩, ⟨3, cl ("♪")⟩] : List Item) ∧
    strip (Item.line ⟨3, cl ("♪")⟩) = [noteChar] ∧
    ∃ g ∈ group_subtitles defaultSettings [⟨1, cl ("Hello.")⟩, ⟨3, cl ("♪")⟩],
      g.positions.head? = some (Item.position ⟨3, cl ("♪")⟩) ∧
      ∃ t, g.text = noteChar :: t :=
  ⟨by decide, by decide,
    music_heads_its_group defaultSettings _ _ (by decide) (by decide)⟩

/-- C5: for every input whose positions are unique, the groups returned by
`group_subtitles` cover exactly the input positions in order (so their
union is the full position set), no position occurs in two groups, and
the group ids are exactly the contiguous range 1..N. -/
theorem grouping_totality (s : Settings) (items : List Item)
    (h : (items.map Item.position).Nodup) :
    posJoin (group_subtitles s items) = items.map Item.position ∧
    (group_subtitles s items).Pairwise (fun a b => ∀ p ∈ a.positions, p ∉ b.positions) ∧
    (group_subtitles s items).map Group.group_id =
      List.range' 1 (group_subtitles s items).length := by
  refine ⟨group_subtitles_posJoin s items, ?_, ?_⟩
  · exact nodup_posJoin_pairwise _ (by rw [group_subtitles_posJoin]; exact h)
  · unfold group_subtitles merge_tiny_groups
    rw [renumberFrom_ids, renumberFrom_length]

theorem grouping_totality_witness :
    (([⟨1, cl ("Hello.")⟩, ⟨2, cl ("- Yes. - No.")⟩, ⟨3, cl ("♪")⟩,
        ⟨4, cl ("I think")⟩, ⟨5, cl ("that's fine.")⟩] : List Item).map
      Item.position).Nodup ∧
    (posJoin (group_subtitles defaultSettings
        [⟨1, cl ("Hello.")⟩, ⟨2, cl ("- Yes. - No.")⟩, ⟨3, cl ("♪")⟩,
          ⟨4, cl ("I think")⟩, ⟨5, cl ("that's fine.")⟩]) =
      ([⟨1, cl ("Hello.")⟩, ⟨2, cl ("- Yes. - No.")⟩, ⟨3, cl ("♪")⟩,
          ⟨4, cl ("I think")⟩, ⟨5, cl ("that's fine.")⟩] : List Item).map Item.position ∧
    (group_subtitles defaultSettings
        [⟨1, cl ("Hello.")⟩, ⟨2, cl ("- Yes. - No.")⟩, ⟨3, cl ("♪")⟩,
          ⟨4, cl ("I think")⟩, ⟨5, cl ("that's fine.")⟩]).Pairwise
      (fun a b => ∀ p ∈ a.positions, p ∉ b.positions) ∧
    (group_subtitles defaultSettings
        [⟨1, cl ("Hello.")⟩, ⟨2, cl ("- Yes. - No.")⟩, ⟨3, cl ("♪")⟩,
          ⟨4, cl ("I think")⟩, ⟨5, cl ("that's fine.")⟩]).map Group.group_id =
      List.range' 1 (group_subtitles defaultSettings
        [⟨1, cl ("Hello.")⟩, ⟨2, cl ("- Yes. - No.")⟩, ⟨3, cl ("♪")⟩,
          ⟨4, cl ("I think")⟩, ⟨5, cl ("that's fine.")⟩]).length) :=
  ⟨by decide, grouping_totality defaultSettings _ (by decide)⟩

end Yasts

namespace Yasts

/-! ## Lemmas: windowing -/

theorem growFocusAux_append (maxc : ℤ) (t : List Group) (used : ℤ) :
    (growFocusAux maxc used t).1 ++ (growFocusAux maxc used t).2.1 = t := by
  induction t generalizing used with
  | nil => rfl
  | cons g t2 ih =>
    simp only [growFocusAux]
    split
    · rfl
    · simpa using ih _

theorem growFocus_append (maxc : ℤ) (gs : List Group) :
    (growFocus maxc gs).1 ++ (growFocus maxc gs).2.1 = gs := by
  cases gs with
  | nil => rfl
  | cons g t => simpa [growFocus] using growFocusAux_append maxc t _

theorem growFocus_cons (maxc : ℤ) (g : Group) (t : List Group) :
    (growFocus maxc (g :: t)).1 = g :: (growFocusAux maxc (group_cost_chars g) t).1 := rfl

theorem mwLoopF_focus (maxc : ℤ) (pre post : ℕ) (fuel : ℕ) (prevRev rest : List Group)
    (h : rest.length ≤ fuel) :
    ((mwLoopF maxc pre post fuel prevRev rest).map Window.focus).flatten = rest ∧
    ∀ w ∈ mwLoopF maxc pre post fuel prevRev rest, w.focus ≠ [] := by
  induction fuel generalizing prevRev rest with
  | zero =>
    have : rest = [] := List.length_eq_zero.mp (Nat.le_zero.mp h)
    subst this
    simp [mwLoopF]
  | succ fuel ih =>
    cases rest with
    | nil => simp [mwLoopF]
    | cons g t =>
      have hne : (growFocus maxc (g :: t)).1 ≠ [] := by
        rw [growFocus_cons]
        exact List.cons_ne_nil _ _
      have happ := growFocus_append maxc (g :: t)
      have hlen : (growFocus maxc (g :: t)).2.1.length ≤ fuel := by
        have h2 : (growFocus maxc (g :: t)).1.length +
            (growFocus maxc (g :: t)).2.1.length = t.length + 1 := by
          have := congrArg List.length happ
          simpa using this
        have h3 : 1 ≤ (growFocus maxc (g :: t)).1.length := by
          rw [growFocus_cons]
          simp
        have h4 : t.length + 1 ≤ fuel + 1 := by simpa using h
        omega
      obtain ⟨ih1, ih2⟩ := ih ((growFocus maxc (g :: t)).1.reverse ++ prevRev)
        (growFocus maxc (g :: t)).2.1 hlen
      constructor
      · simp only [mwLoopF, if_neg hne]
        simp only [List.map_cons, List.flatten_cons]
        rw [ih1]
        exact happ
      · intro w hw
        simp only [mwLoopF, if_neg hne] at hw
        rcases List.mem_cons.mp hw with rfl | hw2
        · exact hne
        · exact ih2 w hw2

/-- C6: for an accepted budget (strictly above 200), `make_windows`
succeeds, concatenating the focus lists of its windows in order yields
exactly the input group list (every group is in exactly one focus, in
order), and every window's focus is non-empty — including when its first
group alone exceeds the budget. -/
theorem window_focus_partition (groups : List Group) (maxc : ℤ) (pre post : ℕ)
    (h : 200 < maxc) :
    ∃ ws, make_windows groups maxc pre post = some ws ∧
      (ws.map Window.focus).flatten = groups ∧ ∀ w ∈ ws, w.focus ≠ [] := by
  refine ⟨mwLoopF maxc pre post groups.length [] groups, ?_, ?_⟩
  · unfold make_windows
    rw [if_neg (by omega)]
  · exact mwLoopF_focus maxc pre post groups.length [] groups le_rfl

theorem window_focus_partition_witness :
    (200 : ℤ) < 201 ∧
    ∃ ws, make_windows [⟨1, [1], List.replicate 300 'a'⟩, ⟨2, [2], cl ("b")⟩] 201 2 2 =
        some ws ∧
      (ws.map Window.focus).flatten =
        [⟨1, [1], List.replicate 300 'a'⟩, ⟨2, [2], cl ("b")⟩] ∧
      ∀ w ∈ ws, w.focus ≠ [] :=
  ⟨by decide, window_focus_partition _ 201 2 2 (by decide)⟩

end Yasts

namespace Yasts

/-! ## Lemmas: extraction -/

theorem extract_eq_foldl_aux (e : List ℤ) (items : List PyVal)
    (acc : List (ℤ × List Char)) :
    items.foldl (fun out it =>
        match resolveItem e it with
        | some gl => dictSetI out gl.1 gl.2
        | none => out) acc =
      (items.filterMap (resolveItem e)).foldl (fun d kv => dictSetI d kv.1 kv.2) acc := by
  induction items generalizing acc with
  | nil => rfl
  | cons it t ih =>
    simp only [List.foldl_cons, List.filterMap_cons]
    cases resolveItem e it <;> simp [ih]

theorem extract_eq_foldl (obj : List (List Char × PyVal)) (e : List ℤ) :
    extract_group_translations obj e =
      (resolvedPairs obj e).foldl (fun d kv => dictSetI d kv.1 kv.2) [] := by
  unfold extract_group_translations resolvedPairs
  cases h : dget obj (cl ("translations")) with
  | none => rfl
  | some v =>
    cases v <;> try rfl
    exact extract_eq_foldl_aux e _ []

theorem dlookup_cons (kv : ℤ × List Char) (t : List (ℤ × List Char)) (k2 : ℤ) :
    dlookup (kv :: t) k2 = if (kv.1 == k2) = true then some kv.2 else dlookup t k2 := by
  by_cases h : (kv.1 == k2) = true
  · simp [dlookup, List.find?_cons_of_pos _ h, h]
  · simp [dlookup, List.find?_cons_of_neg _ h, h]

theorem dlookup_map_set (t : List (ℤ × List Char)) (k : ℤ) (v : List Char) (k2 : ℤ)
    (hne : ¬ k2 = k) :
    dlookup (t.map (fun kv => if kv.1 == k then (k, v) else kv)) k2 = dlookup t k2 := by
  induction t with
  | nil => rfl
  | cons kv t ih =>
    simp only [List.map_cons]
    by_cases hk : (kv.1 == k) = true
    · have hkk : kv.1 = k := beq_iff_eq.mp hk
      have hA : ¬ (((k, v).1 == k2) = true) := by
        simp only [beq_iff_eq]
        exact fun h => hne h.symm
      have hB : ¬ ((kv.1 == k2) = true) := by
        simp only [beq_iff_eq, hkk]
        exact fun h => hne h.symm
      rw [if_pos hk, dlookup_cons, dlookup_cons, if_neg hA, if_neg hB]
      exact ih
    · rw [if_neg hk, dlookup_cons, dlookup_cons]
      by_cases h2 : (kv.1 == k2) = true
      · rw [if_pos h2, if_pos h2]
      · rw [if_neg h2, if_neg h2]
        exact ih

theorem dlookup_map_set_eq (t : List (ℤ × List Char)) (k : ℤ) (v : List Char)
    (hany : t.any (fun kv => kv.1 == k) = true) :
    dlookup (t.map (fun kv => if kv.1 == k then (k, v) else kv)) k = some v := by
  induction t with
  | nil => simp at hany
  | cons kv t ih =>
    simp only [List.map_cons]
    by_cases hk : (kv.1 == k) = true
    · rw [if_pos hk, dlookup_cons, if_pos (by simp)]
    · rw [if_neg hk, dlookup_cons, if_neg hk]
      simp only [List.any_cons, hk, Bool.false_or] at hany
      exact ih hany

theorem dlookup_append_right (d : List (ℤ × List Char)) (k : ℤ) (v : List Char)
    (hany : d.any (fun kv => kv.1 == k) = false) :
    dlookup (d ++ [(k, v)]) k = some v := by
  induction d with
  | nil => simp [dlookup_cons]
  | cons kv t ih =>
    simp only [List.any_cons, Bool.or_eq_false_iff] at hany
    simp only [List.cons_append, dlookup_cons]
    rw [if_neg (by simp [hany.1])]
    exact ih hany.2

theorem dlookup_dictSetI (d : List (ℤ × List Char)) (k : ℤ) (v : List Char) (k2 : ℤ) :
    dlookup (dictSetI d k v) k2 = if k2 = k then some v else dlookup d k2 := by
  unfold dictSetI
  split
  · rename_i hany
    by_cases h2 : k2 = k
    · subst h2
      rw [if_pos rfl]
      exact dlookup_map_set_eq d k2 v hany
    · rw [if_neg h2]
      exact dlookup_map_set d k v k2 h2
  · rename_i hany
    by_cases h2 : k2 = k
    · subst h2
      rw [if_pos rfl]
      exact dlookup_append_right d k2 v (Bool.eq_false_iff.mpr hany)
    · rw [if_neg h2]
      unfold dlookup
      rw [List.find?_append]
      have hnone : List.find? (fun kv => kv.1 == k2) [(k, v)] = none := by
        rw [List.find?_cons_of_neg]
        · rfl
        · simp only [beq_iff_eq]
          exact fun h => h2 h.symm
      rw [hnone, Option.or_none]

end Yasts

namespace Yasts

theorem dlookup_foldl_dictSetI (pairs : List (ℤ × List Char))
    (d : List (ℤ × List Char)) (k : ℤ) :
    dlookup (pairs.foldl (fun d2 kv => dictSetI d2 kv.1 kv.2) d) k =
      match pairs.reverse.find? (fun kv => kv.1 == k) with
      | some kv => some kv.2
      | none => dlookup d k := by
  induction pairs generalizing d with
  | nil => rfl
  | cons kv t ih =>
    simp only [List.foldl_cons, List.reverse_cons, List.find?_append]
    rw [ih]
    cases hf : t.reverse.find? (fun kv2 => kv2.1 == k) with
    | some x => simp
    | none =>
      simp only [Option.none_or]
      rw [dlookup_dictSetI]
      by_cases h2 : k = kv.1
      · rw [if_pos h2, List.find?_cons_of_pos _ (by simp [h2])]
      · rw [if_neg h2, List.find?_cons_of_neg _ (by simp; exact fun h => h2 h.symm)]
        rfl

/-- C3 counterexample: two translations elements with the same group id 1
and lines `"a"` then `"b"`; extraction maps id 1 to `"b"`, the LAST
occurrence, not the first. -/
theorem duplicate_ids_cex :
    dlookup (extract_group_translations
      [(cl ("translations"), .pylist
        [.pydict [(cl ("group_id"), .pyint 1), (cl ("line"), .pystr (cl ("a")))],
         .pydict [(cl ("group_id"), .pyint 1), (cl ("line"), .pystr (cl ("b")))]])]
      [1]) 1 = some (cl ("b")) ∧ ¬ cl ("b") = cl ("a") := by
  constructor
  · rfl
  · decide

/-- C3 (amended): when several translations-list elements resolve to the
same group id, `extract_group_translations` maps that id to the line of
the LAST such occurrence (each later occurrence overwrites the earlier
one): the result of looking up any id is the line of the last resolving
element with that id. -/
theorem extract_last_wins (obj : List (List Char × PyVal)) (e : List ℤ) (gid : ℤ) :
    dlookup (extract_group_translations obj e) gid =
      match (resolvedPairs obj e).reverse.find? (fun kv => kv.1 == gid) with
      | some kv => some kv.2
      | none => none := by
  rw [extract_eq_foldl, dlookup_foldl_dictSetI]
  cases (resolvedPairs obj e).reverse.find? (fun kv => kv.1 == gid) <;> rfl

/-! ## Lemmas: id and line resolution (C9, C10) -/

theorem resolveGid_of_exists (e : List ℤ) (fl : List (List Char × PyVal))
    (h : ∃ kv ∈ fl, ∃ n, pyIntVal kv.2 = some n ∧ n ∈ e) :
    ∃ g, resolveGid e fl = some g ∧
      ∃ fl1 kv fl2, fl = fl1 ++ kv :: fl2 ∧ pyIntVal kv.2 = some g ∧ g ∈ e ∧
        ∀ kv2 ∈ fl1, ∀ n2, pyIntVal kv2.2 = some n2 → n2 ∉ e := by
  induction fl with
  | nil => simp at h
  | cons kv0 t ih =>
    cases hint : pyIntVal kv0.2 with
    | some n =>
      by_cases hn : n ∈ e
      · exact ⟨n, by simp [resolveGid, hint, hn], [], kv0, t, rfl, hint, hn, by simp⟩
      · have h2 : ∃ kv ∈ t, ∃ n2, pyIntVal kv.2 = some n2 ∧ n2 ∈ e := by
          obtain ⟨kv, hmem, n2, hn2, hne⟩ := h
          rcases List.mem_cons.mp hmem with rfl | hmem2
          · rw [hint] at hn2
            cases hn2
            exact absurd hne hn
          · exact ⟨kv, hmem2, n2, hn2, hne⟩
        obtain ⟨g, hg, fl1, kv, fl2, hfl, hkv, hge, hfront⟩ := ih h2
        refine ⟨g, by simp [resolveGid, hint, hn, hg], kv0 :: fl1, kv, fl2, by rw [hfl]; rfl, hkv, hge, ?_⟩
        intro kv2 hmem2 n2 hn2
        rcases List.mem_cons.mp hmem2 with rfl | hmem3
        · rw [hint] at hn2
          cases hn2
          exact hn
        · exact hfront kv2 hmem3 n2 hn2
    | none =>
      have h2 : ∃ kv ∈ t, ∃ n2, pyIntVal kv.2 = some n2 ∧ n2 ∈ e := by
        obtain ⟨kv, hmem, n2, hn2, hne⟩ := h
        rcases List.mem_cons.mp hmem with rfl | hmem2
        · rw [hint] at hn2
          cases hn2
        · exact ⟨kv, hmem2, n2, hn2, hne⟩
      obtain ⟨g, hg, fl1, kv, fl2, hfl, hkv, hge, hfront⟩ := ih h2
      refine ⟨g, by simp [resolveGid, hint, hg], kv0 :: fl1, kv, fl2, by rw [hfl]; rfl, hkv, hge, ?_⟩
      intro kv2 hmem2 n2 hn2
      rcases List.mem_cons.mp hmem2 with rfl | hmem3
      · rw [hint] at hn2
        cases hn2
      · exact hfront kv2 hmem3 n2 hn2

theorem firstStrVal_of_exists (fl : List (List Char × PyVal))
    (h : ∃ kv ∈ fl, (pyStrVal kv.2).isSome) :
    ∃ sv, firstStrVal fl = some sv ∧
      ∃ fl1 kv fl2, fl = fl1 ++ kv :: fl2 ∧ pyStrVal kv.2 = some sv ∧
        ∀ kv2 ∈ fl1, pyStrVal kv2.2 = none := by
  induction fl with
  | nil => simp at h
  | cons kv0 t ih =>
    cases hstr : pyStrVal kv0.2 with
    | some sv =>
      exact ⟨sv, by simp [firstStrVal, hstr], [], kv0, t, rfl, hstr, by simp⟩
    | none =>
      have h2 : ∃ kv ∈ t, (pyStrVal kv.2).isSome := by
        obtain ⟨kv, hmem, hsome⟩ := h
        rcases List.mem_cons.mp hmem with rfl | hmem2
        · rw [hstr] at hsome
          cases hsome
        · exact ⟨kv, hmem2, hsome⟩
      obtain ⟨sv, hsv, fl1, kv, fl2, hfl, hkv, hfront⟩ := ih h2
      refine ⟨sv, by simp [firstStrVal, hstr, hsv], kv0 :: fl1, kv, fl2, by rw [hfl]; rfl, hkv, ?_⟩
      intro kv2 hmem2
      rcases List.mem_cons.mp hmem2 with rfl | hmem3
      · exact hstr
      · exact hfront kv2 hmem3

theorem resolveGid_mem (e : List ℤ) (fl : List (List Char × PyVal)) (g : ℤ)
    (h : resolveGid e fl = some g) : g ∈ e := by
  induction fl with
  | nil => simp [resolveGid] at h
  | cons kv t ih =>
    cases hint : pyIntVal kv.2 with
    | some n =>
      simp only [resolveGid, hint] at h
      by_cases hn : n ∈ e
      · rw [if_pos hn] at h
        cases h
        exact hn
      · rw [if_neg hn] at h
        exact ih h
    | none =>
      simp only [resolveGid, hint] at h
      exact ih h

theorem resolveItem_fst_mem (e : List ℤ) (it : PyVal) (g : ℤ) (sl : List Char)
    (h : resolveItem e it = some (g, sl)) : g ∈ e := by
  cases it <;> simp only [resolveItem] at h <;> try cases h
  rename_i fl
  cases hg : resolveGid e fl with
  | none =>
    rw [hg] at h
    rcases hline :
        (match
          (match dget fl (cl ("line")) with
            | some v => pyStrVal v
            | none => none) with
          | some sl => some sl
          | none => firstStrVal fl) with _ | sl2 <;> simp [hline] at h
  | some g2 =>
    rw [hg] at h
    have := resolveGid_mem e fl g2 hg
    rcases hline :
        (match
          (match dget fl (cl ("line")) with
            | some v => pyStrVal v
            | none => none) with
          | some sl => some sl
          | none => firstStrVal fl) with _ | sl2 <;> rw [hline] at h
    · cases h
    · cases h
      exact this

theorem dictSetI_fst (d : List (ℤ × List Char)) (k : ℤ) (v : List Char)
    (kv2 : ℤ × List Char) (h : kv2 ∈ dictSetI d k v) : kv2.1 = k ∨ kv2 ∈ d := by
  unfold dictSetI at h
  split at h
  · obtain ⟨orig, hmem, horig⟩ := List.mem_map.mp h
    by_cases ho : (orig.1 == k) = true
    · rw [if_pos ho] at horig
      left
      rw [← horig]
    · rw [if_neg ho] at horig
      right
      rw [← horig]
      exact hmem
  · rcases List.mem_append.mp h with h2 | h2
    · right
      exact h2
    · left
      have : kv2 = (k, v) := by simpa using h2
      rw [this]

theorem extract_keys_mem (obj : List (List Char × PyVal)) (e : List ℤ)
    (kv : ℤ × List Char) (h : kv ∈ extract_group_translations obj e) : kv.1 ∈ e := by
  rw [extract_eq_foldl] at h
  have hpairs : ∀ p ∈ resolvedPairs obj e, p.1 ∈ e := by
    intro p hp
    unfold resolvedPairs at hp
    rcases hd : dget obj (cl ("translations")) with _ | v
    · rw [hd] at hp
      simp at hp
    · rw [hd] at hp
      cases v <;> try simp at hp
      rename_i items
      obtain ⟨it, _, hres⟩ := hp
      exact resolveItem_fst_mem e it p.1 p.2 (by rw [hres])
  have main : ∀ (pairs : List (ℤ × List Char)) (d : List (ℤ × List Char)),
      (∀ p ∈ pairs, p.1 ∈ e) → (∀ p ∈ d, p.1 ∈ e) →
      ∀ p ∈ pairs.foldl (fun d2 kv2 => dictSetI d2 kv2.1 kv2.2) d, p.1 ∈ e := by
    intro pairs
    induction pairs with
    | nil => exact fun d _ hd p hp => hd p hp
    | cons q t ih =>
      intro d hq hd p hp
      simp only [List.foldl_cons] at hp
      refine ih _ (fun p2 hp2 => hq p2 (List.mem_cons_of_mem q hp2)) ?_ p hp
      intro p2 hp2
      rcases dictSetI_fst d q.1 q.2 p2 hp2 with h1 | h1
      · rw [h1]
        exact hq q (List.mem_cons_self q t)
      · exact hd p2 h1
  exact main _ [] hpairs (by simp) kv h

end Yasts

namespace Yasts

/-- C9: extraction tolerates renamed keys. For every translations-list
element that is a dict with some integer-valued field whose value is in
`expected` and some string-valued field, the element resolves to a pair
(group id, line): the id is the first integer value (in key order) that is
a member of `expected` (earlier integer-valued fields are not in
`expected`), and the line is the value of the `line` key if it is a
string, else the first string value; moreover ids outside the expected
set never appear in the extraction result. -/
theorem extraction_tolerance (e : List ℤ) (obj : List (List Char × PyVal))
    (fl : List (List Char × PyVal))
    (hg : ∃ kv ∈ fl, ∃ n, pyIntVal kv.2 = some n ∧ n ∈ e)
    (hs : ∃ kv ∈ fl, (pyStrVal kv.2).isSome = true) :
    (∃ g sl, resolveItem e (.pydict fl) = some (g, sl) ∧
      (∃ fl1 kv fl2, fl = fl1 ++ kv :: fl2 ∧ pyIntVal kv.2 = some g ∧ g ∈ e ∧
        ∀ kv2 ∈ fl1, ∀ n2, pyIntVal kv2.2 = some n2 → n2 ∉ e) ∧
      ((∃ v, dget fl (cl ("line")) = some v ∧ pyStrVal v = some sl) ∨
        ((∀ v, dget fl (cl ("line")) = some v → pyStrVal v = none) ∧
          ∃ fl1 kv fl2, fl = fl1 ++ kv :: fl2 ∧ pyStrVal kv.2 = some sl ∧
            ∀ kv2 ∈ fl1, pyStrVal kv2.2 = none))) ∧
    ∀ kv ∈ extract_group_translations obj e, kv.1 ∈ e := by
  refine ⟨?_, fun kv h => extract_keys_mem obj e kv h⟩
  obtain ⟨g, hgid, hgchar⟩ := resolveGid_of_exists e fl hg
  rcases hd : dget fl (cl ("line")) with _ | v
  · obtain ⟨sv, hsv, hschar⟩ := firstStrVal_of_exists fl hs
    refine ⟨g, sv, ?_, hgchar,
      Or.inr ⟨fun v2 hv2 => (by cases hv2), hschar⟩⟩
    simp only [resolveItem, hd, hgid, hsv]
  · rcases hv : pyStrVal v with _ | sl0
    · obtain ⟨sv, hsv, hschar⟩ := firstStrVal_of_exists fl hs
      refine ⟨g, sv, ?_, hgchar,
        Or.inr ⟨fun v2 hv2 => (by cases hv2; exact hv), hschar⟩⟩
      simp only [resolveItem, hd, hv, hgid, hsv]
    · refine ⟨g, sl0, ?_, hgchar, Or.inl ⟨v, rfl, hv⟩⟩
      simp only [resolveItem, hd, hv, hgid]

theorem extraction_tolerance_witness :
    (∃ kv ∈ ([(cl ("gid"), PyVal.pyint 7), (cl ("teksti"), PyVal.pystr (cl ("moi")))] :
        List (List Char × PyVal)), ∃ n, pyIntVal kv.2 = some n ∧ n ∈ ([7] : List ℤ)) ∧
    (∃ kv ∈ ([(cl ("gid"), PyVal.pyint 7), (cl ("teksti"), PyVal.pystr (cl ("moi")))] :
        List (List Char × PyVal)), (pyStrVal kv.2).isSome = true) ∧
    ((∃ g sl, resolveItem [7]
        (.pydict [(cl ("gid"), PyVal.pyint 7), (cl ("teksti"), PyVal.pystr (cl ("moi")))]) =
          some (g, sl) ∧
      (∃ fl1 kv fl2,
        ([(cl ("gid"), PyVal.pyint 7), (cl ("teksti"), PyVal.pystr (cl ("moi")))] :
          List (List Char × PyVal)) = fl1 ++ kv :: fl2 ∧
        pyIntVal kv.2 = some g ∧ g ∈ ([7] : List ℤ) ∧
        ∀ kv2 ∈ fl1, ∀ n2, pyIntVal kv2.2 = some n2 → n2 ∉ ([7] : List ℤ)) ∧
      ((∃ v, dget [(cl ("gid"), PyVal.pyint 7), (cl ("teksti"), PyVal.pystr (cl ("moi")))]
          (cl ("line")) = some v ∧ pyStrVal v = some sl) ∨
        ((∀ v, dget [(cl ("gid"), PyVal.pyint 7), (cl ("teksti"), PyVal.pystr (cl ("moi")))]
            (cl ("line")) = some v → pyStrVal v = none) ∧
          ∃ fl1 kv fl2,
            ([(cl ("gid"), PyVal.pyint 7), (cl ("teksti"), PyVal.pystr (cl ("moi")))] :
              List (List Char × PyVal)) = fl1 ++ kv :: fl2 ∧
            pyStrVal kv.2 = some sl ∧ ∀ kv2 ∈ fl1, pyStrVal kv2.2 = none))) ∧
    ∀ kv ∈ extract_group_translations
        [(cl ("translations"), PyVal.pylist [])] [7], kv.1 ∈ ([7] : List ℤ)) :=
  ⟨⟨(cl ("gid"), PyVal.pyint 7), List.mem_cons_self _ _, 7, rfl, by decide⟩,
   ⟨(cl ("teksti"), PyVal.pystr (cl ("moi"))),
     List.mem_cons_of_mem _ (List.mem_cons_self _ _), rfl⟩,
   extraction_tolerance [7] [(cl ("translations"), PyVal.pylist [])] _
     ⟨(cl ("gid"), PyVal.pyint 7), List.mem_cons_self _ _, 7, rfl, by decide⟩
     ⟨(cl ("teksti"), PyVal.pystr (cl ("moi"))),
       List.mem_cons_of_mem _ (List.mem_cons_self _ _), rfl⟩⟩

/-- C10: because Python `bool` is a subclass of `int`, a translations-list
element whose first integer-valued field (in key order) is the JSON
boolean `true` (resp. `false`) resolves to group id 1 (resp. 0) whenever
1 (resp. 0) is in the expected set, even though no genuine id field is
present: the group-id loop of `extract_group_translations` returns it. -/
theorem bool_accepted_as_gid (e : List ℤ) (fl : List (List Char × PyVal))
    (k : List Char) (b : Bool)
    (h1 : fl.find? (fun kv => (pyIntVal kv.2).isSome) = some (k, .pybool b))
    (h2 : (if b then (1 : ℤ) else 0) ∈ e) :
    resolveGid e fl = some (if b then 1 else 0) := by
  induction fl with
  | nil => cases h1
  | cons kv t ih =>
    by_cases hp : ((pyIntVal kv.2).isSome = true)
    · rw [@List.find?_cons_of_pos _ (fun kv2 => (pyIntVal kv2.2).isSome) kv t hp] at h1
      cases h1
      simp only [resolveGid, pyIntVal]
      rw [if_pos h2]
    · rw [@List.find?_cons_of_neg _ (fun kv2 => (pyIntVal kv2.2).isSome) kv t hp] at h1
      have hnone : pyIntVal kv.2 = none := Option.not_isSome_iff_eq_none.mp hp
      simp only [resolveGid, hnone]
      exact ih h1

theorem bool_accepted_as_gid_witness :
    (([(cl ("name"), PyVal.pystr (cl ("x"))), (cl ("ok"), PyVal.pybool true),
        (cl ("line"), PyVal.pystr (cl ("hei")))] :
      List (List Char × PyVal)).find? (fun kv => (pyIntVal kv.2).isSome) =
        some (cl ("ok"), .pybool true)) ∧
    (1 : ℤ) ∈ ([1, 2] : List ℤ) ∧
    resolveGid [1, 2]
      [(cl ("name"), PyVal.pystr (cl ("x"))), (cl ("ok"), PyVal.pybool true),
        (cl ("line"), PyVal.pystr (cl ("hei")))] = some 1 :=
  ⟨rfl, by decide, bool_accepted_as_gid [1, 2] _ (cl ("ok")) true rfl (by decide)⟩

end Yasts

namespace Yasts

/-! ## Lemmas: Model Gateway retries (C2) -/

theorem retryGo_all_fail (oracle : ℕ → Except Unit (List (List Char × PyVal)))
    (left : ℕ) (attempt : ℕ) (delays : List ℚ)
    (h : ∀ k, attempt ≤ k → k ≤ attempt + left →
      ∃ e, call_llama (oracle k) = Except.error e) :
    ∃ e, call_llama (oracle (attempt + left)) = Except.error e ∧
      retryGo oracle left attempt delays =
        (Except.error e, attempt + left + 1,
          delays ++ (List.range left).map (fun i => retryDelay (attempt + i))) := by
  induction left generalizing attempt delays with
  | zero =>
    obtain ⟨e, he⟩ := h attempt le_rfl (by omega)
    refine ⟨e, by simpa using he, ?_⟩
    rw [retryGo, he]
    simp
  | succ l ih =>
    obtain ⟨e0, he0⟩ := h attempt le_rfl (by omega)
    have step : retryGo oracle (l + 1) attempt delays =
        retryGo oracle l (attempt + 1) (delays ++ [retryDelay attempt]) := by
      rw [retryGo, he0]
    obtain ⟨e, he, hrec⟩ := ih (attempt + 1) (delays ++ [retryDelay attempt])
      (fun k h1 h2 => h k (by omega) (by omega))
    refine ⟨e, ?_, ?_⟩
    · rw [show attempt + (l + 1) = attempt + 1 + l from by omega]
      exact he
    · rw [step, hrec]
      simp only [Prod.mk.injEq]
      refine ⟨trivial, by omega, ?_⟩
      simp only [List.range_succ_eq_map, List.map_cons, List.map_map, List.append_assoc,
        List.cons_append, List.nil_append, List.singleton_append, Function.comp,
        Nat.add_zero]
      refine congrArg (fun x => delays ++ retryDelay attempt :: x) ?_
      refine List.map_congr_left ?_
      intro i _
      exact congrArg retryDelay (by omega)

/-- C2 counterexample: a response body that parses as JSON but has none of
the tolerated shapes (no content field, no usable choices element, no text
field) is retried like any other failure, not raised after a single
attempt: with the fixed `retries = 2` of the pipeline, the wrapper makes
3 attempts and then re-raises the shape error. -/
theorem shape_error_retried_cex :
    (call_llama_with_retries (fun _ => .ok [(cl ("foo"), PyVal.pyint 1)]) 2).2.1 = 3 ∧
    ¬ (call_llama_with_retries (fun _ => .ok [(cl ("foo"), PyVal.pyint 1)]) 2).2.1 = 1 ∧
    isShapeErr (call_llama_with_retries (fun _ => .ok [(cl ("foo"), PyVal.pyint 1)]) 2).1 =
      true := by
  refine ⟨rfl, by decide, rfl⟩

/-- C2 (amended): `call_llama_with_retries` treats every failure of a call
attempt alike — transient transport failures and content-shape errors are
both retried, with exponential backoff delays `0.75 * 2 ^ attempt`, up to
the fixed retry count; when every attempt fails, the wrapper makes
`retries + 1` attempts, sleeps the backoff delays for attempts
`0..retries-1`, and re-raises the failure of the last attempt. -/
theorem gateway_retry_exhaustion (oracle : ℕ → Except Unit (List (List Char × PyVal)))
    (retries : ℕ)
    (h : ∀ k, k ≤ retries → ∃ e, call_llama (oracle k) = Except.error e) :
    ∃ e, call_llama (oracle retries) = Except.error e ∧
      call_llama_with_retries oracle retries =
        (Except.error e, retries + 1, (List.range retries).map retryDelay) := by
  have hmain := retryGo_all_fail oracle retries 0 [] (fun k h1 h2 => h k (by omega))
  simpa [call_llama_with_retries] using hmain

theorem gateway_retry_exhaustion_witness :
    (∀ k, k ≤ 2 → ∃ e, call_llama ((fun _ => Except.error ()) k) = Except.error e) ∧
    ∃ e, call_llama ((fun _ => (Except.error () : Except Unit (List (List Char × PyVal)))) 2)
        = Except.error e ∧
      call_llama_with_retries (fun _ => Except.error ()) 2 =
        (Except.error e, 3, (List.range 2).map retryDelay) :=
  ⟨fun _ _ => ⟨.transport, rfl⟩,
    gateway_retry_exhaustion (fun _ => Except.error ()) 2 (fun _ _ => ⟨.transport, rfl⟩)⟩

end Yasts

namespace Yasts

/-! ## Lemmas: Window Translator retry/shrink loop (C8) -/

theorem measure_step_lt (maj2 maj r2 r R : ℕ) (h1 : maj2 < maj) (h2 : r2 ≤ R + 1) :
    maj2 * (R + 2) + r2 < maj * (R + 2) + r := by
  have h3 : (maj2 + 1) * (R + 2) = maj2 * (R + 2) + (R + 2) := by ring
  have h4 : (maj2 + 1) * (R + 2) ≤ maj * (R + 2) := Nat.mul_le_mul_right _ h1
  omega

theorem shrink_list_ne_nil (xs : List Group) (h : xs ≠ []) : shrink_list xs ≠ [] := by
  unfold shrink_list
  split
  · exact h
  · rename_i hlen
    cases xs with
    | nil => exact absurd rfl h
    | cons x t =>
      intro hcon
      have := congrArg List.length hcon
      rw [List.length_take] at this
      simp at this

theorem shrink_list_length_le (xs : List Group) : (shrink_list xs).length ≤ xs.length := by
  unfold shrink_list
  split
  · exact le_rfl
  · rw [List.length_take]
    omega

theorem translateWindowLoop_total (s : Settings)
    (oracle : ℕ → List Group → Except Unit (List (ℤ × List Char))) :
    ∀ (fuel k : ℕ) (focusRem curFocus : List Group) (attempt : ℕ)
      (out : List (ℤ × List Char)) (cnt : ℕ),
      (focusRem ≠ [] → curFocus ≠ []) →
      curFocus.length ≤ focusRem.length →
      attempt ≤ s.max_retries_per_window →
      (2 * focusRem.length + (if 1 < curFocus.length then 1 else 0)) *
          (s.max_retries_per_window + 2) +
          (s.max_retries_per_window + 1 - attempt) < fuel →
      translateWindowLoop s oracle fuel k focusRem curFocus attempt out cnt ≠ none ∧
      ((∀ k2 c, ∃ e2, oracle k2 c = Except.error e2) → focusRem ≠ [] →
        ∃ e, translateWindowLoop s oracle fuel k focusRem curFocus attempt out cnt =
          some (Except.error e)) := by
  intro fuel
  induction fuel with
  | zero =>
    intro k fr cf a o c _ _ _ hm
    omega
  | succ fuel ih =>
    intro k focusRem curFocus attempt out cnt hne hlen hatt hm
    cases focusRem with
    | nil =>
      exact ⟨by simp [translateWindowLoop], fun _ h2 => absurd rfl h2⟩
    | cons f r =>
      have hcf : curFocus ≠ [] := hne (List.cons_ne_nil f r)
      have hcfpos : 1 ≤ curFocus.length := List.length_pos.mpr hcf
      have hLpos : 1 ≤ (f :: r).length := by simp
      have hmle : (2 * (f :: r).length + (if 1 < curFocus.length then 1 else 0)) *
          (s.max_retries_per_window + 2) +
          (s.max_retries_per_window + 1 - attempt) ≤ fuel := Nat.lt_succ_iff.mp hm
      cases hor : oracle k curFocus with
      | ok chunk =>
        simp only [translateWindowLoop, hor]
        have hb2 : (if 1 < ((f :: r).drop curFocus.length).length then 1 else 0) ≤ 1 := by
          split <;> omega
        have hdrop : ((f :: r).drop curFocus.length).length =
            (f :: r).length - curFocus.length := List.length_drop _ _
        have hmaj : 2 * ((f :: r).drop curFocus.length).length +
            (if 1 < ((f :: r).drop curFocus.length).length then 1 else 0) <
            2 * (f :: r).length + (if 1 < curFocus.length then 1 else 0) := by
          omega
        have hmeas : (2 * ((f :: r).drop curFocus.length).length +
            (if 1 < ((f :: r).drop curFocus.length).length then 1 else 0)) *
            (s.max_retries_per_window + 2) +
            (s.max_retries_per_window + 1 - 0) < fuel :=
          lt_of_lt_of_le (measure_step_lt _ _ _ _ _ hmaj (by omega)) hmle
        have hrec := ih (k + 1) ((f :: r).drop curFocus.length)
          ((f :: r).drop curFocus.length) 0
          (chunk.foldl (fun d kv => dictSetI d kv.1 kv.2) out)
          (cnt + curFocus.length) (fun h => h) le_rfl (Nat.zero_le _) hmeas
        refine ⟨hrec.1, fun hfail _ => ?_⟩
        obtain ⟨e2, he2⟩ := hfail k curFocus
        rw [hor] at he2
        cases he2
      | error e =>
        simp only [translateWindowLoop, hor]
        by_cases hforce : s.max_retries_per_window < attempt + 1
        · rw [if_pos hforce]
          by_cases hbig : 1 < curFocus.length
          · rw [if_pos hbig]
            have htake : (curFocus.take 1).length = 1 := by
              rw [List.length_take]
              omega
            have hmaj : 2 * (f :: r).length + (if 1 < (curFocus.take 1).length then 1 else 0) <
                2 * (f :: r).length + (if 1 < curFocus.length then 1 else 0) := by
              rw [htake, if_neg (by omega), if_pos hbig]
              omega
            have hmeas : (2 * (f :: r).length +
                (if 1 < (curFocus.take 1).length then 1 else 0)) *
                (s.max_retries_per_window + 2) +
                (s.max_retries_per_window + 1 - 0) < fuel :=
              lt_of_lt_of_le (measure_step_lt _ _ _ _ _ hmaj (by omega)) hmle
            have hrec := ih (k + 1) (f :: r) (curFocus.take 1) 0 out cnt
              (fun _ => by intro hcon; rw [hcon] at htake; simp at htake)
              (by omega) (Nat.zero_le _) hmeas
            exact ⟨hrec.1, hrec.2⟩
          · rw [if_neg hbig]
            exact ⟨by simp, fun _ _ => ⟨e, rfl⟩⟩
        · rw [if_neg hforce]
          have hatt2 : attempt + 1 ≤ s.max_retries_per_window := by omega
          by_cases hsh : (s.shrink_focus_on_retry && decide (1 < curFocus.length)) = true
          · rw [if_pos hsh]
            have hbig : 1 < curFocus.length := by
              simp only [Bool.and_eq_true, decide_eq_true_eq] at hsh
              exact hsh.2
            rw [if_pos hbig] at hmle
            have hmeas : (2 * (f :: r).length +
                (if 1 < (shrink_list curFocus).length then 1 else 0)) *
                (s.max_retries_per_window + 2) +
                (s.max_retries_per_window + 1 - (attempt + 1)) < fuel := by
              by_cases hb2 : 1 < (shrink_list curFocus).length
              · rw [if_pos hb2]
                omega
              · rw [if_neg hb2]
                refine lt_of_lt_of_le (measure_step_lt _ _ _ _ _ (by omega) (by omega)) hmle
            have hrec := ih (k + 1) (f :: r) (shrink_list curFocus) (attempt + 1) out cnt
              (fun _ => shrink_list_ne_nil curFocus hcf)
              (le_trans (shrink_list_length_le curFocus) hlen) hatt2 hmeas
            exact ⟨hrec.1, hrec.2⟩
          · rw [if_neg hsh]
            have hmeas : (2 * (f :: r).length +
                (if 1 < curFocus.length then 1 else 0)) *
                (s.max_retries_per_window + 2) +
                (s.max_retries_per_window + 1 - (attempt + 1)) < fuel := by
              omega
            have hrec := ih (k + 1) (f :: r) curFocus (attempt + 1) out cnt
              (fun _ => hcf) hlen hatt2 hmeas
            exact ⟨hrec.1, hrec.2⟩

/-- C8: the per-window translation loop always terminates — with the
explicit fuel `c8Fuel` (quadratic in the focus size and retry budget) the
loop never runs out of fuel for any oracle of attempt outcomes, and when
every model attempt fails the loop ends by raising the failing chunk's
error (the multi-group chunk is halved within the retry budget, force
shrunk to one group with the counter reset on exceeding it, and a
single-group chunk that exhausts the budget raises). -/
theorem retry_shrink_termination (s : Settings)
    (oracle : ℕ → List Group → Except Unit (List (ℤ × List Char)))
    (focus : List Group) :
    translate_entire_window s oracle focus ≠ none ∧
    ((∀ k c, ∃ e, oracle k c = Except.error e) → focus ≠ [] →
      ∃ e, translate_entire_window s oracle focus = some (Except.error e)) := by
  unfold translate_entire_window c8Fuel
  refine translateWindowLoop_total s oracle _ 0 focus focus 0 [] 0
    (fun h => h) le_rfl (Nat.zero_le _) ?_
  have hb : (if 1 < focus.length then 1 else 0) ≤ 1 := by split <;> omega
  have hmono : (2 * focus.length + (if 1 < focus.length then 1 else 0)) *
      (s.max_retries_per_window + 2) ≤
      (2 * focus.length + 1) * (s.max_retries_per_window + 2) :=
    Nat.mul_le_mul_right _ (by omega)
  omega

theorem retry_shrink_termination_witness :
    translate_entire_window defaultSettings (fun _ _ => Except.error ())
        [⟨1, [1], cl ("a")⟩, ⟨2, [2], cl ("b")⟩] ≠ none ∧
    ∃ e, translate_entire_window defaultSettings (fun _ _ => Except.error ())
        [⟨1, [1], cl ("a")⟩, ⟨2, [2], cl ("b")⟩] = some (Except.error e) :=
  ⟨(retry_shrink_termination defaultSettings (fun _ _ => Except.error ())
      [⟨1, [1], cl ("a")⟩, ⟨2, [2], cl ("b")⟩]).1,
   (retry_shrink_termination defaultSettings (fun _ _ => Except.error ())
      [⟨1, [1], cl ("a")⟩, ⟨2, [2], cl ("b")⟩]).2
     (fun _ _ => ⟨(), rfl⟩) (by decide)⟩

end Yasts

namespace Yasts

/-! ## Lemmas: duration-weighted targets (C4) -/

theorem sum_set_getD (l : List ℤ) (i : ℕ) (v : ℤ) (h : i < l.length) :
    (l.set i v).sum = l.sum - l.getD i 0 + v := by
  induction l generalizing i with
  | nil => simp at h
  | cons x t ih =>
    cases i with
    | zero => simp [List.set]; ring
    | succ n =>
      have hn : n < t.length := by simpa using h
      simp [List.set, ih n hn]
      ring

theorem growPass_length (maxt : ℤ) (gl : List ℕ) :
    ∀ ts b, (growPass maxt gl (ts, b)).1.length = ts.length := by
  induction gl with
  | nil => intro ts b; rfl
  | cons i t ih =>
    intro ts b
    simp only [growPass]
    split
    · rfl
    · split
      · rw [ih]
        simp
      · exact ih ts b

theorem growPass_budget_nonneg (maxt : ℤ) (gl : List ℕ) :
    ∀ ts b, 0 ≤ b → 0 ≤ (growPass maxt gl (ts, b)).2 := by
  induction gl with
  | nil => intro ts b hb; exact hb
  | cons i t ih =>
    intro ts b hb
    simp only [growPass]
    split
    · exact hb
    · rename_i hble
      split
      · exact ih _ _ (by omega)
      · exact ih ts b hb

theorem growPass_budget_le (maxt : ℤ) (gl : List ℕ) :
    ∀ ts b, (growPass maxt gl (ts, b)).2 ≤ b := by
  induction gl with
  | nil => intro ts b; exact le_rfl
  | cons i t ih =>
    intro ts b
    simp only [growPass]
    split
    · exact le_rfl
    · split
      · exact le_trans (ih _ _) (by omega)
      · exact ih ts b

theorem growPass_sum (maxt : ℤ) (gl : List ℕ) :
    ∀ ts b, 0 ≤ b →
      (growPass maxt gl (ts, b)).1.sum + (growPass maxt gl (ts, b)).2 ≤ ts.sum + b := by
  induction gl with
  | nil => intro ts b _; exact le_rfl
  | cons i t ih =>
    intro ts b hb
    simp only [growPass]
    split
    · exact le_rfl
    · rename_i hble
      split
      · refine le_trans (ih _ _ (by omega)) ?_
        by_cases hi : i < ts.length
        · rw [sum_set_getD ts i _ hi]
          omega
        · rw [List.set_eq_of_length_le (by omega)]
          omega
      · exact ih ts b hb

theorem growPass_bounds (maxt mint : ℤ) (gl : List ℕ) :
    ∀ ts b, (∀ i ∈ gl, i < ts.length) →
      (∀ x ∈ ts, mint ≤ x ∧ x ≤ maxt) →
      ∀ x ∈ (growPass maxt gl (ts, b)).1, mint ≤ x ∧ x ≤ maxt := by
  induction gl with
  | nil => intro ts b _ hts; exact hts
  | cons i t ih =>
    intro ts b hval hts
    simp only [growPass]
    split
    · exact hts
    · split
      · rename_i hlt
        refine ih _ _ (fun j hj => by rw [List.length_set]; exact hval j (List.mem_cons_of_mem i hj)) ?_
        intro x hx
        rcases List.mem_or_eq_of_mem_set hx with hx2 | hx2
        · exact hts x hx2
        · have hi : i < ts.length := hval i (List.mem_cons_self i t)
          rw [List.getD_eq_getElem ts 0 hi] at hx2 hlt
          have := hts _ (List.getElem_mem hi)
          subst hx2
          omega
      · exact ih ts b (fun j hj => hval j (List.mem_cons_of_mem i hj)) hts

theorem growPass_budget_dec (maxt : ℤ) (i : ℕ) (gl : List ℕ) (ts : List ℤ) (b : ℤ)
    (hb : 0 < b) (hi : ts.getD i 0 < maxt) :
    (growPass maxt (i :: gl) (ts, b)).2 ≤ b - 1 := by
  simp only [growPass]
  rw [if_neg (by omega), if_pos hi]
  exact growPass_budget_le maxt gl _ _

theorem growLoopF_length (maxt : ℤ) (order : List ℕ) :
    ∀ fuel ts b, (growLoopF maxt order fuel ts b).length = ts.length := by
  intro fuel
  induction fuel with
  | zero => intro ts b; rfl
  | succ fuel ih =>
    intro ts b
    simp only [growLoopF]
    split
    · split
      · rfl
      · rw [ih, growPass_length]
    · rfl

theorem growLoopF_sum (maxt : ℤ) (order : List ℕ) :
    ∀ fuel ts b, 0 ≤ b → (growLoopF maxt order fuel ts b).sum ≤ ts.sum + b := by
  intro fuel
  induction fuel with
  | zero =>
    intro ts b hb
    simp only [growLoopF]
    omega
  | succ fuel ih =>
    intro ts b hb
    simp only [growLoopF]
    split
    · split
      · omega
      · refine le_trans (ih _ _ (growPass_budget_nonneg maxt _ ts b hb)) ?_
        exact growPass_sum maxt _ ts b hb
    · omega

theorem growLoopF_bounds (maxt mint : ℤ) (order : List ℕ) :
    ∀ fuel ts b, (∀ i ∈ order, i < ts.length) →
      (∀ x ∈ ts, mint ≤ x ∧ x ≤ maxt) →
      ∀ x ∈ growLoopF maxt order fuel ts b, mint ≤ x ∧ x ≤ maxt := by
  intro fuel
  induction fuel with
  | zero => intro ts b _ hts; exact hts
  | succ fuel ih =>
    intro ts b hval hts
    simp only [growLoopF]
    split
    · split
      · exact hts
      · refine ih _ _ ?_ ?_
        · intro j hj
          rw [growPass_length]
          exact hval j hj
        · refine growPass_bounds maxt mint _ ts b ?_ hts
          intro j hj
          exact hval j (List.mem_of_mem_filter hj)
    · exact hts

theorem shrinkPass_length (mint : ℤ) (gl : List ℕ) :
    ∀ ts over, (shrinkPass mint gl (ts, over)).1.length = ts.length := by
  induction gl with
  | nil => intro ts over; rfl
  | cons i t ih =>
    intro ts over
    simp only [shrinkPass]
    split
    · rfl
    · split
      · rw [ih]
        simp
      · exact ih ts over

theorem shrinkPass_over_nonneg (mint : ℤ) (gl : List ℕ) :
    ∀ ts over, 0 ≤ over → 0 ≤ (shrinkPass mint gl (ts, over)).2 := by
  induction gl with
  | nil => intro ts over h; exact h
  | cons i t ih =>
    intro ts over h
    simp only [shrinkPass]
    split
    · exact h
    · split
      · exact ih _ _ (by omega)
      · exact ih ts over h

theorem shrinkPass_over_le (mint : ℤ) (gl : List ℕ) :
    ∀ ts over, (shrinkPass mint gl (ts, over)).2 ≤ over := by
  induction gl with
  | nil => intro ts over; exact le_rfl
  | cons i t ih =>
    intro ts over
    simp only [shrinkPass]
    split
    · exact le_rfl
    · split
      · exact le_trans (ih _ _) (by omega)
      · exact ih ts over

theorem shrinkPass_sum (mint : ℤ) (gl : List ℕ) :
    ∀ ts over, (∀ i ∈ gl, i < ts.length) →
      (shrinkPass mint gl (ts, over)).1.sum - (shrinkPass mint gl (ts, over)).2 =
        ts.sum - over := by
  induction gl with
  | nil => intro ts over _; rfl
  | cons i t ih =>
    intro ts over hval
    simp only [shrinkPass]
    split
    · rfl
    · split
      · rw [ih _ _ (fun j hj => by rw [List.length_set]; exact hval j (List.mem_cons_of_mem i hj))]
        rw [sum_set_getD ts i _ (hval i (List.mem_cons_self i t))]
        ring
      · exact ih ts over (fun j hj => hval j (List.mem_cons_of_mem i hj))

theorem shrinkPass_bounds (maxt mint : ℤ) (gl : List ℕ) :
    ∀ ts over, (∀ i ∈ gl, i < ts.length) →
      (∀ x ∈ ts, mint ≤ x ∧ x ≤ maxt) →
      ∀ x ∈ (shrinkPass mint gl (ts, over)).1, mint ≤ x ∧ x ≤ maxt := by
  induction gl with
  | nil => intro ts over _ hts; exact hts
  | cons i t ih =>
    intro ts over hval hts
    simp only [shrinkPass]
    split
    · exact hts
    · split
      · rename_i hlt
        refine ih _ _ (fun j hj => by rw [List.length_set]; exact hval j (List.mem_cons_of_mem i hj)) ?_
        intro x hx
        rcases List.mem_or_eq_of_mem_set hx with hx2 | hx2
        · exact hts x hx2
        · have hi : i < ts.length := hval i (List.mem_cons_self i t)
          rw [List.getD_eq_getElem ts 0 hi] at hx2 hlt
          have := hts _ (List.getElem_mem hi)
          subst hx2
          omega
      · exact ih ts over (fun j hj => hval j (List.mem_cons_of_mem i hj)) hts

theorem shrinkPass_over_dec (mint : ℤ) (i : ℕ) (gl : List ℕ) (ts : List ℤ) (over : ℤ)
    (hb : 0 < over) (hi : mint < ts.getD i 0) :
    (shrinkPass mint (i :: gl) (ts, over)).2 ≤ over - 1 := by
  simp only [shrinkPass]
  rw [if_neg (by omega), if_pos hi]
  exact shrinkPass_over_le mint gl _ _

theorem filter_head_prop {α : Type} (p : α → Bool) (l : List α) (x : α) (t : List α)
    (h : l.filter p = x :: t) : p x = true := by
  have hx : x ∈ l.filter p := by
    rw [h]
    exact List.mem_cons_self x t
  exact (List.mem_filter.mp hx).2

theorem shrinkLoopF_spec (mint : ℤ) (order : List ℕ) :
    ∀ (fuel : ℕ) (ts : List ℤ) (over : ℤ),
      (∀ i ∈ order, i < ts.length) → 0 ≤ over → over.toNat ≤ fuel →
      (shrinkLoopF mint order fuel ts over).length = ts.length ∧
      ∃ over2, 0 ≤ over2 ∧
        (shrinkLoopF mint order fuel ts over).sum - over2 = ts.sum - over ∧
        (over2 = 0 ∨ ∀ i ∈ order, (shrinkLoopF mint order fuel ts over).getD i 0 ≤ mint) := by
  intro fuel
  induction fuel with
  | zero =>
    intro ts over hval hnn hfuel
    have hz : over = 0 := by omega
    subst hz
    exact ⟨rfl, 0, le_rfl, by simp [shrinkLoopF], Or.inl rfl⟩
  | succ fuel ih =>
    intro ts over hval hnn hfuel
    simp only [shrinkLoopF]
    split
    · rename_i hpos
      cases hfil : order.filter (fun i => decide (mint < ts.getD i 0)) with
      | nil =>
        rw [if_pos rfl]
        refine ⟨rfl, over, hnn, by ring, Or.inr ?_⟩
        intro i hi
        by_contra hcon
        have : i ∈ order.filter (fun i => decide (mint < ts.getD i 0)) :=
          List.mem_filter.mpr ⟨hi, decide_eq_true (by omega)⟩
        rw [hfil] at this
        simp at this
      | cons j t =>
        rw [if_neg (List.cons_ne_nil j t)]
        have hjp : mint < ts.getD j 0 :=
          of_decide_eq_true (filter_head_prop _ order j t hfil)
        have hdec : (shrinkPass mint (j :: t) (ts, over)).2 ≤ over - 1 :=
          shrinkPass_over_dec mint j t ts over hpos hjp
        have hvalf : ∀ i ∈ j :: t, i < ts.length := by
          intro i hi
          refine hval i ?_
          have : i ∈ order.filter (fun i => decide (mint < ts.getD i 0)) := by
            rw [hfil]
            exact hi
          exact List.mem_of_mem_filter this
        have hnn2 : 0 ≤ (shrinkPass mint (j :: t) (ts, over)).2 :=
          shrinkPass_over_nonneg mint (j :: t) ts over hnn
        have hval2 : ∀ i ∈ order, i < (shrinkPass mint (j :: t) (ts, over)).1.length := by
          intro i hi
          rw [shrinkPass_length]
          exact hval i hi
        have hfuel2 : (shrinkPass mint (j :: t) (ts, over)).2.toNat ≤ fuel := by
          omega
        obtain ⟨hlen2, over2, h1, h2, h3⟩ :=
          ih (shrinkPass mint (j :: t) (ts, over)).1
            (shrinkPass mint (j :: t) (ts, over)).2 hval2 hnn2 hfuel2
        refine ⟨by rw [hlen2, shrinkPass_length], over2, h1, ?_, h3⟩
        rw [h2, shrinkPass_sum mint (j :: t) ts over hvalf]
    · rename_i hpos
      have hz : over = 0 := by omega
      subst hz
      exact ⟨rfl, 0, le_rfl, by ring, Or.inl rfl⟩

theorem shrinkLoopF_bounds (maxt mint : ℤ) (order : List ℕ) :
    ∀ fuel ts over, (∀ i ∈ order, i < ts.length) →
      (∀ x ∈ ts, mint ≤ x ∧ x ≤ maxt) →
      ∀ x ∈ shrinkLoopF mint order fuel ts over, mint ≤ x ∧ x ≤ maxt := by
  intro fuel
  induction fuel with
  | zero => intro ts over _ hts; exact hts
  | succ fuel ih =>
    intro ts over hval hts
    simp only [shrinkLoopF]
    split
    · split
      · exact hts
      · refine ih _ _ ?_ ?_
        · intro j hj
          rw [shrinkPass_length]
          exact hval j hj
        · refine shrinkPass_bounds maxt mint _ ts over ?_ hts
          intro j hj
          exact hval j (List.mem_of_mem_filter hj)
    · exact hts

theorem sum_getD_const (m : ℤ) : ∀ (l : List ℤ),
    (∀ i, i < l.length → l.getD i 0 = m) → l.sum = m * l.length := by
  intro l
  induction l with
  | nil => simp
  | cons x t ih =>
    intro h
    have hx : x = m := by simpa using h 0 (by simp)
    have ht : t.sum = m * t.length := by
      refine ih ?_
      intro i hi
      simpa using h (i + 1) (by simpa using hi)
    simp only [List.sum_cons, hx, ht, List.length_cons]
    push_cast
    ring

theorem sortIdxAsc_lt (durs : List ℚ) (i : ℕ) (h : i ∈ sortIdxAsc durs) :
    i < durs.length := by
  have := (List.perm_insertionSort
    (fun i j => durs.getD i 0 ≤ durs.getD j 0) (List.range durs.length)).subset h
  exact List.mem_range.mp this

theorem sortIdxAsc_mem (durs : List ℚ) (i : ℕ) (h : i < durs.length) :
    i ∈ sortIdxAsc durs := by
  exact ((List.perm_insertionSort
    (fun i j => durs.getD i 0 ≤ durs.getD j 0) (List.range durs.length)).mem_iff).mpr
    (List.mem_range.mpr h)

theorem sortIdxDesc_lt (durs : List ℚ) (i : ℕ) (h : i ∈ sortIdxDesc durs) :
    i < durs.length := by
  have := (List.perm_insertionSort
    (fun i j => durs.getD j 0 ≤ durs.getD i 0) (List.range durs.length)).subset h
  exact List.mem_range.mp this

end Yasts

namespace Yasts

theorem shrinkLoopF_length (mint : ℤ) (order : List ℕ) :
    ∀ fuel ts over, (shrinkLoopF mint order fuel ts over).length = ts.length := by
  intro fuel
  induction fuel with
  | zero => intro ts over; rfl
  | succ fuel ih =>
    intro ts over
    simp only [shrinkLoopF]
    split
    · split
      · rfl
      · rw [ih, shrinkPass_length]
    · rfl

theorem targets_weighted_length (s : Settings) (positions : List ℤ)
    (translated : List Char) (durGet : ℤ → ℚ) :
    (targets_weighted_by_duration s positions translated durGet).length =
      positions.length := by
  simp only [targets_weighted_by_duration, targets_from_source_lengths]
  split
  · simp
  · split
    · rw [growLoopF_length]
      simp
    · split
      · rw [shrinkLoopF_length]
        simp
      · simp

theorem durs_sum_pos (positions : List ℤ) (durGet : ℤ → ℚ) (hne : positions ≠ []) :
    0 < (positions.map (fun p => max (1 / 100 : ℚ) (durGet p))).sum := by
  cases positions with
  | nil => exact absurd rfl hne
  | cons p t =>
    simp only [List.map_cons, List.sum_cons]
    have h1 : (1 / 100 : ℚ) ≤ max (1 / 100) (durGet p) := le_max_left _ _
    have h2 : (0 : ℚ) ≤ (t.map (fun p => max (1 / 100 : ℚ) (durGet p))).sum := by
      refine List.sum_nonneg ?_
      intro x hx
      obtain ⟨q, _, rfl⟩ := List.mem_map.mp hx
      exact le_trans (by norm_num) (le_max_left _ _)
    have : (0 : ℚ) < 1 / 100 := by norm_num
    linarith




theorem shrink_branch_spec (minT maxT : ℤ) (order : List ℕ) (ts : List ℤ) (over : ℤ)
    (hval : ∀ i ∈ order, i < ts.length)
    (hcover : ∀ i, i < ts.length → i ∈ order)
    (h0 : ∀ x ∈ ts, minT ≤ x ∧ x ≤ maxT)
    (hnn : 0 ≤ over) :
    (∀ x ∈ shrinkLoopF minT order over.toNat ts over, minT ≤ x ∧ x ≤ maxT) ∧
    (shrinkLoopF minT order over.toNat ts over).sum ≤
      max (ts.sum - over) (minT * (ts.length : ℤ)) := by
  have hb := shrinkLoopF_bounds maxT minT order over.toNat ts over hval h0
  obtain ⟨hlen, over2, hnn2, hsum, hdisj⟩ :=
    shrinkLoopF_spec minT order over.toNat ts over hval hnn le_rfl
  refine ⟨hb, ?_⟩
  rcases hdisj with rfl | hall
  · refine le_trans (le_of_eq (by omega)) (le_max_left _ _)
  · have hconst : ∀ i, i < (shrinkLoopF minT order over.toNat ts over).length →
        (shrinkLoopF minT order over.toNat ts over).getD i 0 = minT := by
      intro i hi
      have hle := hall i (hcover i (by rw [← hlen]; exact hi))
      have hge : minT ≤ (shrinkLoopF minT order over.toNat ts over).getD i 0 := by
        rw [List.getD_eq_getElem _ 0 hi]
        exact (hb _ (List.getElem_mem hi)).1
      omega
    rw [sum_getD_const minT _ hconst, hlen]
    exact le_max_right _ _

end Yasts

namespace Yasts

/-- Entry bounds of `_targets_weighted_by_duration`: shared helper. -/
theorem targets_weighted_mem_bounds (s : Settings) (positions : List ℤ)
    (translated : List Char) (durGet : ℤ → ℚ) (hne : positions ≠ [])
    (hmm : max 8 s.min_chunk_chars ≤ s.split_max_line_chars) :
    ∀ t ∈ targets_weighted_by_duration s positions translated durGet,
      max 8 s.min_chunk_chars ≤ t ∧ t ≤ s.split_max_line_chars := by
  have hpos := durs_sum_pos positions durGet hne
  simp only [targets_weighted_by_duration]
  rw [if_neg (not_le.mpr hpos)]
  split
  · refine growLoopF_bounds _ _ _ _ _ _ ?_ ?_
    · intro i hi
      have := sortIdxDesc_lt _ i hi
      simpa using this
    · intro x hx
      obtain ⟨d, _, rfl⟩ := List.mem_map.mp hx
      exact ⟨le_min hmm (le_max_left _ _), min_le_left _ _⟩
  · split
    · refine shrinkLoopF_bounds s.split_max_line_chars _ _ _ _ _ ?_ ?_
      · intro i hi
        have := sortIdxAsc_lt _ i hi
        simpa using this
      · intro x hx
        obtain ⟨d, _, rfl⟩ := List.mem_map.mp hx
        exact ⟨le_min hmm (le_max_left _ _), min_le_left _ _⟩
    · intro x hx
      obtain ⟨d, _, rfl⟩ := List.mem_map.mp hx
      exact ⟨le_min hmm (le_max_left _ _), min_le_left _ _⟩

theorem sum_lower_bound (m : ℤ) : ∀ l : List ℤ,
    (∀ x ∈ l, m ≤ x) → m * (l.length : ℤ) ≤ l.sum := by
  intro l
  induction l with
  | nil => simp
  | cons x t ih =>
    intro h
    have hx := h x (List.mem_cons_self x t)
    have ht := ih (fun y hy => h y (List.mem_cons_of_mem x hy))
    simp only [List.sum_cons, List.length_cons]
    push_cast
    linarith

/-- C4 counterexample: with default settings, one position (count 1),
translated text `"abcde"` (5 characters) and constant duration 1, every
target entry is clamped up to the minimum `max 8 min_chunk_chars = 10`,
so the sum is at least 10, while the claimed cap
`min(total_translated_length, max*count) = min(5, 42) = 5`: the sum
exceeds the claimed cap. -/
theorem targets_sum_cap_cex :
    ¬ (targets_weighted_by_duration defaultSettings [1] (cl ("abcde"))
        (fun _ => 1)).sum ≤
      min (max 1 ((strip (cl ("abcde"))).length : ℤ))
        (defaultSettings.split_max_line_chars * (([1] : List ℤ).length : ℤ)) := by
  intro hcon
  have hbounds := targets_weighted_mem_bounds defaultSettings [1] (cl ("abcde"))
    (fun _ => 1) (by decide) (by decide)
  have hlen := targets_weighted_length defaultSettings [1] (cl ("abcde")) (fun _ => 1)
  have hsum := sum_lower_bound (max 8 defaultSettings.min_chunk_chars) _
    (fun x hx => (hbounds x hx).1)
  rw [hlen] at hsum
  have h1 : max 8 defaultSettings.min_chunk_chars * ((([1] : List ℤ)).length : ℤ) = 10 := by
    decide
  have h2 : min (max 1 ((strip (cl ("abcde"))).length : ℤ))
      (defaultSettings.split_max_line_chars * (([1] : List ℤ).length : ℤ)) = 5 := by
    decide
  rw [h1] at hsum
  rw [h2] at hcon
  omega

/-- C4 (amended): for every non-empty positions list, translated text and
duration lookup, with a non-degenerate clamp interval
(`max 8 min_chunk_chars ≤ split_max_line_chars`), every entry of
`_targets_weighted_by_duration` lies in the configured clamp interval, and
the sum never exceeds `max (min(total_translated_length, max*count))
(min*count)`: the claimed cap `min(total_translated_length, max*count)`
can be exceeded, but only up to `min*count`, because the shrink loop stops
once every entry has reached the configured minimum. -/
theorem targets_weighted_bounds (s : Settings) (positions : List ℤ)
    (translated : List Char) (durGet : ℤ → ℚ)
    (hne : positions ≠ [])
    (hmm : max 8 s.min_chunk_chars ≤ s.split_max_line_chars) :
    (∀ t ∈ targets_weighted_by_duration s positions translated durGet,
      max 8 s.min_chunk_chars ≤ t ∧ t ≤ s.split_max_line_chars) ∧
    (targets_weighted_by_duration s positions translated durGet).sum ≤
      max (min (max 1 ((strip translated).length : ℤ))
            (s.split_max_line_chars * (positions.length : ℤ)))
          ((max 8 s.min_chunk_chars) * (positions.length : ℤ)) := by
  refine ⟨targets_weighted_mem_bounds s positions translated durGet hne hmm, ?_⟩
  have hpos := durs_sum_pos positions durGet hne
  simp only [targets_weighted_by_duration]
  rw [if_neg (not_le.mpr hpos)]
  split
  · rename_i hlt
    refine le_trans (growLoopF_sum _ _ _ _ _ (by omega)) ?_
    refine le_trans (le_of_eq (by ring)) (le_max_left _ _)
  · split
    · rename_i hnlt hgt
      refine le_trans (shrink_branch_spec _ s.split_max_line_chars _ _ _ ?_ ?_ ?_ ?_).2 ?_
      · intro i hi
        have := sortIdxAsc_lt _ i hi
        simpa using this
      · intro i hi
        refine sortIdxAsc_mem _ i ?_
        rw [List.length_map] at hi
        exact hi
      · intro x hx
        obtain ⟨d, _, rfl⟩ := List.mem_map.mp hx
        exact ⟨le_min hmm (le_max_left _ _), min_le_left _ _⟩
      · omega
      · refine max_le_max (le_of_eq (by ring)) (le_of_eq ?_)
        rw [List.length_map, List.length_map]
    · rename_i hnlt hngt
      have heq := le_antisymm (not_lt.mp hngt) (not_lt.mp hnlt)
      rw [heq]
      exact le_max_left _ _

theorem targets_weighted_bounds_witness :
    (([1, 2] : List ℤ) ≠ []) ∧
    max 8 defaultSettings.min_chunk_chars ≤ defaultSettings.split_max_line_chars ∧
    ((∀ t ∈ targets_weighted_by_duration defaultSettings [1, 2]
        (cl ("tama on pitkahko kaannetty rivi jossa on sanoja")) (fun p => (p : ℚ)),
      max 8 defaultSettings.min_chunk_chars ≤ t ∧
        t ≤ defaultSettings.split_max_line_chars) ∧
    (targets_weighted_by_duration defaultSettings [1, 2]
        (cl ("tama on pitkahko kaannetty rivi jossa on sanoja")) (fun p => (p : ℚ))).sum ≤
      max (min (max 1 ((strip (cl ("tama on pitkahko kaannetty rivi jossa on sanoja"))).length : ℤ))
            (defaultSettings.split_max_line_chars * ((([1, 2] : List ℤ)).length : ℤ)))
          ((max 8 defaultSettings.min_chunk_chars) * ((([1, 2] : List ℤ)).length : ℤ))) :=
  ⟨by decide, by decide,
    targets_weighted_bounds defaultSettings [1, 2]
      (cl ("tama on pitkahko kaannetty rivi jossa on sanoja")) (fun p => (p : ℚ))
      (by decide) (by decide)⟩

/-- On an all-whitespace input, `splitWsAux` just flushes the accumulator. -/
theorem splitWsAux_allws (w : List Char) : (∀ c ∈ w, isWs c = true) →
    ∀ cur, splitWsAux w cur = if cur = [] then [] else [cur] := by
  induction w with
  | nil => intro _ cur; rfl
  | cons c t ih =>
    intro hw cur
    have hc := hw c (List.mem_cons_self c t)
    have ht : ∀ x ∈ t, isWs x = true := fun x hx => hw x (List.mem_cons_of_mem c hx)
    simp [splitWsAux, hc, ih ht]

/-- A trailing all-whitespace suffix does not change the split. -/
theorem splitWsAux_append_ws (w : List Char) (hw : ∀ c ∈ w, isWs c = true) :
    ∀ (l cur : List Char), splitWsAux (l ++ w) cur = splitWsAux l cur := by
  intro l
  induction l with
  | nil =>
    intro cur
    show splitWsAux w cur = splitWsAux [] cur
    rw [splitWsAux_allws w hw cur]
    rfl
  | cons c t ih =>
    intro cur
    simp only [List.cons_append, splitWsAux]
    split_ifs <;> simp [ih]

/-- Splitting ignores leading whitespace. -/
theorem splitWs_lstrip (l : List Char) : splitWs (lstrip l) = splitWs l := by
  induction l with
  | nil => rfl
  | cons c t ih =>
    by_cases hc : isWs c = true
    · have h1 : lstrip (c :: t) = lstrip t := by simp [lstrip, List.dropWhile_cons, hc]
      rw [h1, ih]
      show splitWs t = splitWsAux (c :: t) []
      simp [splitWs, splitWsAux, hc]
    · have h1 : lstrip (c :: t) = c :: t := by simp [lstrip, List.dropWhile_cons, hc]
      rw [h1]

/-- Splitting ignores trailing whitespace. -/
theorem splitWs_rstrip (l : List Char) : splitWs (rstrip l) = splitWs l := by
  have hsplit : rstrip l ++ (l.reverse.takeWhile isWs).reverse = l := by
    rw [rstrip, ← List.reverse_append, List.takeWhile_append_dropWhile, List.reverse_reverse]
  have hws : ∀ c ∈ (l.reverse.takeWhile isWs).reverse, isWs c = true := by
    intro c hcmem
    rw [List.mem_reverse] at hcmem
    exact List.mem_takeWhile_imp hcmem
  calc splitWs (rstrip l)
      = splitWs (rstrip l ++ (l.reverse.takeWhile isWs).reverse) :=
        (splitWsAux_append_ws _ hws (rstrip l) []).symm
    _ = splitWs l := by rw [hsplit]

/-- Splitting ignores surrounding whitespace. -/
theorem splitWs_strip (l : List Char) : splitWs (strip l) = splitWs l := by
  rw [strip, splitWs_lstrip, splitWs_rstrip]

/-- Every word produced by `splitWsAux` is nonempty and whitespace-free. -/
theorem splitWsAux_mem (l : List Char) : ∀ cur, (∀ c ∈ cur, isWs c = false) →
    ∀ w ∈ splitWsAux l cur, w ≠ [] ∧ ∀ c ∈ w, isWs c = false := by
  induction l with
  | nil =>
    intro cur hcur w hw
    by_cases hc : cur = []
    · simp [splitWsAux, hc] at hw
    · simp [splitWsAux, hc] at hw
      subst hw
      exact ⟨hc, hcur⟩
  | cons c t ih =>
    intro cur hcur w hw
    by_cases hc : isWs c = true
    · by_cases hc2 : cur = []
      · simp [splitWsAux, hc, hc2] at hw
        exact ih [] (by simp) w hw
      · simp [splitWsAux, hc, hc2] at hw
        rcases hw with rfl | hw
        · exact ⟨hc2, hcur⟩
        · exact ih [] (by simp) w hw
    · have hc3 : isWs c = false := by simpa using hc
      simp [splitWsAux, hc3] at hw
      refine ih (cur ++ [c]) ?_ w hw
      intro x hx
      rcases List.mem_append.mp hx with h | h
      · exact hcur x h
      · have : x = c := List.mem_singleton.mp h
        subst this
        exact hc3

/-- Every word of `splitWs` is nonempty and whitespace-free. -/
theorem splitWs_mem (l : List Char) : ∀ w ∈ splitWs l, w ≠ [] ∧ ∀ c ∈ w, isWs c = false :=
  splitWsAux_mem l [] (by simp)

/-- `splitWsAux` scans straight through a whitespace-free word. -/
theorem splitWsAux_word_continue (w : List Char) : (∀ c ∈ w, isWs c = false) →
    ∀ (rest cur : List Char), splitWsAux (w ++ rest) cur = splitWsAux rest (cur ++ w) := by
  induction w with
  | nil => intro _ rest cur; simp
  | cons c t ih =>
    intro hw rest cur
    have hc := hw c (List.mem_cons_self c t)
    have ht : ∀ x ∈ t, isWs x = false := fun x hx => hw x (List.mem_cons_of_mem c hx)
    simp [splitWsAux, hc, ih ht, List.append_assoc]

/-- `splitWs` of one nonempty whitespace-free word is that singleton. -/
theorem splitWs_single (w : List Char) (hne : w ≠ []) (hw : ∀ c ∈ w, isWs c = false) :
    splitWs w = [w] := by
  have h := splitWsAux_word_continue w hw [] []
  rw [List.append_nil] at h
  rw [splitWs, h]
  simp [splitWsAux, hne]

/-- `splitWs` is a left inverse of `joinSp` on nonempty whitespace-free words. -/
theorem splitWs_joinSp : ∀ ws : List (List Char),
    (∀ w ∈ ws, w ≠ [] ∧ ∀ c ∈ w, isWs c = false) → splitWs (joinSp ws) = ws := by
  intro ws
  induction ws with
  | nil => intro _; rfl
  | cons w t ih =>
    intro h
    have hw := h w (List.mem_cons_self w t)
    have ht := fun x hx => h x (List.mem_cons_of_mem w hx)
    cases t with
    | nil => exact splitWs_single w hw.1 hw.2
    | cons w2 t2 =>
      show splitWs (w ++ ' ' :: joinSp (w2 :: t2)) = w :: w2 :: t2
      rw [splitWs, splitWsAux_word_continue w hw.2]
      simp only [List.nil_append]
      have hsp : isWs ' ' = true := rfl
      have hstep : splitWsAux (' ' :: joinSp (w2 :: t2)) w
          = w :: splitWsAux (joinSp (w2 :: t2)) [] := by
        simp [splitWsAux, hsp, hw.1]
      rw [hstep, ← splitWs, ih ht]






/-- The chunk taken plus the remainder is the accumulator plus the input. -/
theorem takeChunk_append (target minChunk : ℤ) :
    ∀ (rem cur : List (List Char)) (curLen : ℤ),
      (takeChunk target minChunk cur curLen rem).1 ++ (takeChunk target minChunk cur curLen rem).2
        = cur ++ rem := by
  intro rem
  induction rem with
  | nil => intro cur curLen; simp [takeChunk]
  | cons w ws ih =>
    intro cur curLen
    simp only [takeChunk]
    split_ifs <;> simp [ih]

/-- `sgGo` yields one chunk per target. -/
theorem sgGo_length (minChunk : ℤ) : ∀ (targets : List ℤ) (ws : List (List Char)),
    (sgGo minChunk targets ws).length = targets.length := by
  intro targets
  induction targets with
  | nil => intro ws; rfl
  | cons t ts ih =>
    intro ws
    cases ts with
    | nil => rfl
    | cons t2 ts2 =>
      cases ws with
      | nil => simp [sgGo, ih]
      | cons w ws2 => simp [sgGo, ih]

/-- The chunk word lists produced by `sgGo` flatten back to the input words. -/
theorem sgGo_words (minChunk : ℤ) : ∀ (targets : List ℤ) (ws : List (List Char)),
    targets ≠ [] → (∀ w ∈ ws, w ≠ [] ∧ ∀ c ∈ w, isWs c = false) →
    ((sgGo minChunk targets ws).map splitWs).flatten = ws := by
  intro targets
  induction targets with
  | nil => intro ws h _; exact absurd rfl h
  | cons t ts ih =>
    intro ws _ hws
    cases ts with
    | nil =>
      show ([strip (joinSp ws)].map splitWs).flatten = ws
      simp [splitWs_strip, splitWs_joinSp ws hws]
    | cons t2 ts2 =>
      cases ws with
      | nil =>
        show (([] :: sgGo minChunk (t2 :: ts2) []).map splitWs).flatten = ([] : List (List Char))
        have hih := ih [] (List.cons_ne_nil t2 ts2) (by simp)
        simp only [List.map_cons, List.flatten_cons, hih]
        rfl
      | cons w ws2 =>
        show ((strip (joinSp (takeChunk t minChunk [] 0 (w :: ws2)).1)
            :: sgGo minChunk (t2 :: ts2) (takeChunk t minChunk [] 0 (w :: ws2)).2).map
              splitWs).flatten = w :: ws2
        have happ := takeChunk_append t minChunk (w :: ws2) [] 0
        rw [List.nil_append] at happ
        have h1 : ∀ x ∈ (takeChunk t minChunk [] 0 (w :: ws2)).1,
            x ≠ [] ∧ ∀ c ∈ x, isWs c = false := by
          intro x hx
          refine hws x ?_
          rw [← happ]
          exact List.mem_append_left _ hx
        have h2 : ∀ x ∈ (takeChunk t minChunk [] 0 (w :: ws2)).2,
            x ≠ [] ∧ ∀ c ∈ x, isWs c = false := by
          intro x hx
          refine hws x ?_
          rw [← happ]
          exact List.mem_append_right _ hx
        have hih := ih _ (List.cons_ne_nil t2 ts2) h2
        simp only [List.map_cons, List.flatten_cons, hih]
        rw [splitWs_strip, splitWs_joinSp _ h1, happ]

/-- `split_greedy` yields one chunk per target, and the chunks' words flatten
back to the words of the trimmed text. -/
theorem split_greedy_words (text : List Char) (targets : List ℤ) (minChunk : ℤ)
    (hne : targets ≠ []) :
    (split_greedy text targets minChunk).length = targets.length ∧
    ((split_greedy text targets minChunk).map splitWs).flatten = splitWs (strip text) := by
  simp only [split_greedy]
  rw [if_neg hne]
  by_cases hw : splitWs (strip text) = []
  · rw [if_pos hw, hw]
    constructor
    · simp
    · rw [List.flatten_eq_nil_iff]
      intro x hx
      rw [List.map_map] at hx
      obtain ⟨t2, _, rfl⟩ := List.mem_map.mp hx
      rfl
  · rw [if_neg hw]
    exact ⟨sgGo_length minChunk targets _, sgGo_words minChunk targets _ hne (splitWs_mem _)⟩

/-- Updating a dict with a fresh key appends. -/
theorem dictSetI_not_mem (d : List (ℤ × List Char)) (k : ℤ) (v : List Char)
    (h : ∀ kv ∈ d, kv.1 ≠ k) : dictSetI d k v = d ++ [(k, v)] := by
  have hfalse : d.any (fun kv => kv.1 == k) = false := by
    rw [List.any_eq_false]
    intro kv hkv
    simpa using h kv hkv
  rw [dictSetI, hfalse]
  simp

/-- Folding dict updates over pairs with fresh, pairwise-distinct keys
appends the pairs in order. -/
theorem foldl_dictSetI_nodup :
    ∀ (pairs acc : List (ℤ × List Char)),
      (pairs.map Prod.fst).Nodup →
      (∀ kv ∈ acc, ∀ kv2 ∈ pairs, kv.1 ≠ kv2.1) →
      pairs.foldl (fun d kv => dictSetI d kv.1 kv.2) acc = acc ++ pairs := by
  intro pairs
  induction pairs with
  | nil => intro acc _ _; simp
  | cons kv t ih =>
    intro acc hnd hdisj
    rw [List.map_cons, List.nodup_cons] at hnd
    have hfresh : ∀ kv2 ∈ acc, kv2.1 ≠ kv.1 :=
      fun kv2 h2 => hdisj kv2 h2 kv (List.mem_cons_self kv t)
    have hdisj2 : ∀ kv2 ∈ acc ++ [kv], ∀ kv3 ∈ t, kv2.1 ≠ kv3.1 := by
      intro kv2 h2 kv3 h3
      rcases List.mem_append.mp h2 with h | h
      · exact hdisj kv2 h kv3 (List.mem_cons_of_mem kv h3)
      · have : kv2 = kv := List.mem_singleton.mp h
        subst this
        intro hceq
        apply hnd.1
        rw [hceq]
        exact List.mem_map_of_mem Prod.fst h3
    rw [List.foldl_cons, dictSetI_not_mem acc kv.1 kv.2 hfresh,
      ih (acc ++ [kv]) hnd.2 hdisj2]
    simp


/-- Building the result dict over `zip positions chunks` with distinct
positions keeps one entry per position, in order, with stripped values. -/
theorem zip_fold_spec (positions : List ℤ) (chunks : List (List Char))
    (hnd : positions.Nodup) (hlen : chunks.length = positions.length) :
    (((positions.zip chunks).map (fun pc => (pc.1, strip pc.2))).foldl
        (fun d kv => dictSetI d kv.1 kv.2) []).map Prod.fst = positions ∧
    ((((positions.zip chunks).map (fun pc => (pc.1, strip pc.2))).foldl
        (fun d kv => dictSetI d kv.1 kv.2) []).map (fun kv => splitWs kv.2)).flatten
      = (chunks.map splitWs).flatten := by
  have hkeys : ((positions.zip chunks).map (fun pc => (pc.1, strip pc.2))).map Prod.fst
      = positions := by
    rw [List.map_map]
    have hcomp : (Prod.fst ∘ fun pc : ℤ × List Char => (pc.1, strip pc.2)) = Prod.fst := rfl
    rw [hcomp, List.map_fst_zip _ _ (le_of_eq hlen.symm)]
  have hfold := foldl_dictSetI_nodup ((positions.zip chunks).map (fun pc => (pc.1, strip pc.2)))
    [] (by rw [hkeys]; exact hnd) (by intro kv h; simp at h)
  rw [List.nil_append] at hfold
  rw [hfold]
  refine ⟨hkeys, ?_⟩
  rw [List.map_map]
  have hcomp2 : ((fun kv : ℤ × List Char => splitWs kv.2) ∘
      fun pc : ℤ × List Char => (pc.1, strip pc.2))
      = (fun c => splitWs (strip c)) ∘ Prod.snd := rfl
  rw [hcomp2, ← List.map_map, List.map_snd_zip _ _ (le_of_eq hlen)]
  have hmapeq : chunks.map (fun c => splitWs (strip c)) = chunks.map splitWs :=
    List.map_congr_left (fun c _ => splitWs_strip c)
  rw [hmapeq]

/-- Core of splitback coverage, for any target list of the right length. -/
theorem splitback_core (positions : List ℤ) (tr : List Char) (targets : List ℤ)
    (minChunk : ℤ) (hnd : positions.Nodup) (hlen : targets.length = positions.length)
    (hne : positions ≠ []) :
    (((positions.zip (split_greedy tr targets minChunk)).map
        (fun pc => (pc.1, strip pc.2))).foldl
        (fun d kv => dictSetI d kv.1 kv.2) []).map Prod.fst = positions ∧
    ((((positions.zip (split_greedy tr targets minChunk)).map
        (fun pc => (pc.1, strip pc.2))).foldl
        (fun d kv => dictSetI d kv.1 kv.2) []).map (fun kv => splitWs kv.2)).flatten
      = splitWs tr := by
  have hne2 : targets ≠ [] := by
    intro h
    rw [h] at hlen
    exact hne (List.length_eq_zero.mp hlen.symm)
  obtain ⟨hl, hw⟩ := split_greedy_words tr targets minChunk hne2
  have hz := zip_fold_spec positions (split_greedy tr targets minChunk) hnd (by rw [hl, hlen])
  exact ⟨hz.1, by rw [hz.2, hw, splitWs_strip]⟩

/-- C7 counterexample: with two positions and the translated text `"♪"`,
`split_group_translation_to_positions` takes the music shortcut and returns
a single entry for the first position only - not one entry per position. -/
theorem splitback_music_cex :
    split_group_translation_to_positions defaultSettings [1, 2] (cl ("♪")) (fun _ => none) none
      = [(1, [noteChar])] ∧
    ¬ ((split_group_translation_to_positions defaultSettings [1, 2] (cl ("♪")) (fun _ => none)
        none).length = (([1, 2] : List ℤ)).length) := by
  decide

/-- C7 (amended): for every positions list that is non-empty and free of
duplicates, and every translated text whose trimmed form is not exactly the
music marker, `split_group_translation_to_positions` returns exactly one
entry per position, in position order, and concatenating the returned chunks
in that order reconstructs the trimmed translated text word for word (the
last position absorbing all remaining words). When the trimmed text is the
music marker, only the first position receives an entry. -/
theorem splitback_coverage (s : Settings) (positions : List ℤ) (translated : List Char)
    (inputByPos : ℤ → Option (List Char)) (durMap : Option (List (ℤ × ℚ)))
    (hne : positions ≠ []) (hnd : positions.Nodup)
    (hmus : strip translated ≠ [noteChar]) :
    (split_group_translation_to_positions s positions translated inputByPos durMap).map
        Prod.fst = positions ∧
    ((split_group_translation_to_positions s positions translated inputByPos durMap).map
        (fun kv => splitWs kv.2)).flatten = splitWs (strip translated) := by
  cases durMap with
  | none =>
    simp only [split_group_translation_to_positions]
    rw [if_neg hmus]
    exact splitback_core positions (strip translated) _ s.min_chunk_chars hnd
      (by simp [targets_from_source_lengths]) hne
  | some m =>
    simp only [split_group_translation_to_positions]
    rw [if_neg hmus]
    by_cases hcond : m ≠ [] ∧ ∀ p ∈ positions, (alookup m p).isSome
    · rw [if_pos hcond]
      exact splitback_core positions (strip translated) _ s.min_chunk_chars hnd
        (targets_weighted_length s positions (strip translated) _) hne
    · rw [if_neg hcond]
      exact splitback_core positions (strip translated) _ s.min_chunk_chars hnd
        (by simp [targets_from_source_lengths]) hne

theorem splitback_coverage_witness :
    (([1, 2] : List ℤ) ≠ []) ∧ (([1, 2] : List ℤ)).Nodup ∧
    strip (cl ("hello there world")) ≠ [noteChar] ∧
    ((split_group_translation_to_positions defaultSettings [1, 2] (cl ("hello there world"))
        (fun _ => some (cl ("abcdefghij"))) none).map Prod.fst = ([1, 2] : List ℤ) ∧
      ((split_group_translation_to_positions defaultSettings [1, 2] (cl ("hello there world"))
        (fun _ => some (cl ("abcdefghij"))) none).map (fun kv => splitWs kv.2)).flatten
        = splitWs (strip (cl ("hello there world")))) :=
  ⟨by decide, by decide, by decide,
    splitback_coverage defaultSettings [1, 2] (cl ("hello there world"))
      (fun _ => some (cl ("abcdefghij"))) none (by decide) (by decide) (by decide)⟩

end Yasts
